import Mathlib

/-!
# bayan: removal of duplicate files

A shallow embedding of `bayan.cpp` / `bayan.h` and the properties of its two engines, of the
walker and of the constructor.

Conventions of the embedding:

* `std::set<T>` is the strictly ascending list of its elements, `std::map<K,V>` the list of
  its key/value pairs in strictly ascending key order.
* Calls that leave the program (`fs::remove`, `hash_func`, `fs::directory_iterator`,
  `std::cout`) are recorded, in program order, as a list of `Event`s.
* `fs::remove` may throw, and so may the three calls of the walker to the file system:
  `fs::directory_iterator(dir)`, `entry.status()` and `fs::file_size(entry)`. Nothing in the
  program catches an exception: one that escapes a loop body ends the loop, the walk and the
  run. A block of statements yields the events it emitted together with a flag telling whether
  it ran to its end. An exception thrown while a directory iterator advances ends the walk
  like one thrown by `status()` on the next entry. The calls of the constructor to the file
  system (`fs::exists`, `fs::is_directory`) and the hash function are taken to return.
* The values of type `size_t` are natural numbers. The only arithmetic on them is
  `current_depth + 1`, computed under `current_depth <= m_depth`; it could wrap only below a
  chain of `2 ^ 64` nested directories.
* A path `fs::path` is the sequence of its elements, ordered like `path::compare`: element by
  element.
* `hash.h` is not part of the sources at hand: the hash function is a parameter.
* `std::regex` is a parameter of the walker and the constructor; where a property depends on
  the grammar, the library is instantiated with a fragment of the ECMAScript grammar
  (ordinary characters, `'|'`, parentheses).
-/

namespace Dz09

/-! ## Ordered containers -/

/-- The call `std::set<T>::emplace(x)` on a set ordered by the comparison `lt`: the element is
put at its place, and nothing changes when an equivalent element is already there. -/
def setEmplace {α : Type} (lt : α → α → Bool) (x : α) : List α → List α
  | [] => [x]
  | y :: ys =>
    if lt x y then x :: y :: ys
    else if lt y x then y :: setEmplace lt x ys
    else y :: ys

/-- The expression `m[k]` of `std::map<K,V>` followed by the update `f` of the mapped value; a
missing key is first inserted with the value-initialised `dflt`. -/
def mapUpdate {κ ν : Type} [LinearOrder κ] (k : κ) (dflt : ν) (f : ν → ν) :
    List (κ × ν) → List (κ × ν)
  | [] => [(k, f dflt)]
  | (k', v) :: m =>
    if k < k' then (k, f dflt) :: (k', v) :: m
    else if k' < k then (k', v) :: mapUpdate k dflt f m
    else (k', f v) :: m

/-! ## Effects -/

/-- What `fs::remove(path)` does: it removes the file and returns `true`, or finds no file and
returns `false`, or fails (permission denied, ...) and throws `filesystem_error`. -/
inductive RemoveOutcome where
  | removed
  | absent
  | error
  deriving DecidableEq

/-- The calls and the output lines of a run, in program order. -/
inductive Event (P : Type) where
  /-- The line `std::cout << dir` of `Run`. -/
  | printDir (dir : P)
  /-- The loop `fs::directory_iterator(dir)`. -/
  | enumerate (dir : P)
  /-- The call `m_filedata->Add(file)`. -/
  | add (file : P)
  /-- The call `hash_func(file.string(), buffer_size)`. -/
  | hash (file : P)
  /-- The call `fs::remove(file)`. -/
  | remove (file : P)
  /-- The line `std::cout << "File removed: " << file`. -/
  | logRemoved (file : P)
  /-- The line `std::cerr << "Invalid arguments, can't continue"`. -/
  | logInvalid
  deriving DecidableEq

/-- A `for` loop whose body may throw: the bodies run in order until one does not run to its
end (`false`), and the exception then leaves the loop. -/
def forEach {α P : Type} (body : α → List (Event P) × Bool) : List α → List (Event P) × Bool
  | [] => ([], true)
  | x :: xs =>
    match body x with
    | (t, true) => ((t ++ (forEach body xs).1), (forEach body xs).2)
    | (t, false) => (t, false)

/-- The arguments of the `fs::remove` calls, in order, whatever their outcome. -/
def removeCalls {P : Type} : List (Event P) → List P
  | [] => []
  | Event.remove p :: t => p :: removeCalls t
  | _ :: t => removeCalls t

/-- The files handed to the hash function, in order. -/
def hashCalls {P : Type} : List (Event P) → List P
  | [] => []
  | Event.hash p :: t => p :: hashCalls t
  | _ :: t => hashCalls t

/-- The files handed to `Add`, in order. -/
def addCalls {P : Type} : List (Event P) → List P
  | [] => []
  | Event.add p :: t => p :: addCalls t
  | _ :: t => addCalls t

/-- The directories enumerated, in order. -/
def enumerateCalls {P : Type} : List (Event P) → List P
  | [] => []
  | Event.enumerate p :: t => p :: enumerateCalls t
  | _ :: t => enumerateCalls t

/-- The paths logged as removed, in order. -/
def removedLog {P : Type} : List (Event P) → List P
  | [] => []
  | Event.logRemoved p :: t => p :: removedLog t
  | _ :: t => removedLog t

/-! ## The size-first engine `BayanDataSizeFirstImpl` -/

/-- The environment of an engine: `fs::file_size`, the hash function of `hash.h` (path and
block size to digest) and `fs::remove`. -/
structure World (P D : Type) where
  file_size : P → Nat
  hash_func : P → Nat → D
  remove : P → RemoveOutcome

/-- The fields of `BayanDataSizeFirstImpl`: `m_data` is a
`std::map<size_t, std::set<fs::path>>`. -/
structure BayanDataSizeFirstImpl (P : Type) where
  buffer_size : Nat
  m_data : List (Nat × List P)

section SizeFirst

variable {P D : Type} [LinearOrder P] [LinearOrder D]

/-- The method `BayanDataSizeFirstImpl::Add`: `m_data[fs::file_size(file)].emplace(file)`. It
emits no event: the file is not hashed here. -/
def BayanDataSizeFirstImpl.Add (w : World P D) (self : BayanDataSizeFirstImpl P) (file : P) :
    BayanDataSizeFirstImpl P × List (Event P) :=
  ({ self with
      m_data := mapUpdate (w.file_size file) [] (setEmplace (fun a b => decide (a < b)) file)
        self.m_data }, [])

/-- The first inner loop of `RemoveDuplicate`: every file of a size bucket is hashed and
appended (`emplace_back`) to the vector of its digest in the local map `hashes`. -/
def hashBuckets (w : World P D) (buffer_size : Nat) :
    List P → List (D × List P) → List (D × List P)
  | [], hashes => hashes
  | file :: rest, hashes =>
    hashBuckets w buffer_size rest
      (mapUpdate (w.hash_func file buffer_size) [] (fun v => v ++ [file]) hashes)

/-- The innermost loop of `RemoveDuplicate`: the first file of a digest bucket is skipped, each
later one is removed and logged. -/
def removeAllButFirst (w : World P D) (bucket : List P) : List (Event P) × Bool :=
  match bucket with
  | [] => ([], true)
  | _ :: others =>
    forEach (fun file =>
      match w.remove file with
      | RemoveOutcome.error => ([Event.remove file], false)
      | _ => ([Event.remove file, Event.logRemoved file], true)) others

/-- The method `BayanDataSizeFirstImpl::RemoveDuplicate`. -/
def BayanDataSizeFirstImpl.RemoveDuplicate (w : World P D) (self : BayanDataSizeFirstImpl P) :
    List (Event P) × Bool :=
  forEach (fun (filesize : Nat × List P) =>
    if filesize.2.length > 1 then
      let hashes := hashBuckets w self.buffer_size filesize.2 []
      match forEach (fun (hash : D × List P) => removeAllButFirst w hash.2) hashes with
      | (t, ok) => (filesize.2.map Event.hash ++ t, ok)
    else ([], true)) self.m_data

/-- The engine after a sequence of `Add` calls on a fresh engine. -/
def BayanDataSizeFirstImpl.addAll (w : World P D) (self : BayanDataSizeFirstImpl P) :
    List P → BayanDataSizeFirstImpl P
  | [] => self
  | file :: rest => BayanDataSizeFirstImpl.addAll w (self.Add w file).1 rest

/-- The duplicate groups the size-first engine forms: the digest buckets of every size bucket
with more than one member. -/
def BayanDataSizeFirstImpl.groups (w : World P D) (self : BayanDataSizeFirstImpl P) :
    List (List P) :=
  self.m_data.flatMap (fun filesize =>
    if filesize.2.length > 1 then
      (hashBuckets w self.buffer_size filesize.2 []).map Prod.snd
    else [])

end SizeFirst

/-! ## The hash-first engine `BayanDataImpl` -/

/-- The struct `FileData`. -/
structure FileData (P : Type) where
  path : P
  size : Nat
  deriving DecidableEq

/-- The comparison `operator<(const FileData&, const FileData&)`. -/
def FileData.lt {P : Type} [LinearOrder P] (lhs rhs : FileData P) : Bool :=
  if lhs.size ≠ rhs.size then decide (lhs.size < rhs.size)
  else decide (lhs.path < rhs.path)

/-- The fields of `BayanDataImpl`: `m_data` is a
`std::map<std::array<char, hash_size>, std::set<FileData>>`. -/
structure BayanDataImpl (P D : Type) where
  buffer_size : Nat
  m_data : List (D × List (FileData P))

section HashFirst

variable {P D : Type} [LinearOrder P] [LinearOrder D]

/-- The method `BayanDataImpl::Add`: the file is hashed at once and
`m_data[tmphash].emplace(file, fs::file_size(file))`. -/
def BayanDataImpl.Add (w : World P D) (self : BayanDataImpl P D) (file : P) :
    BayanDataImpl P D × List (Event P) :=
  let tmphash := w.hash_func file self.buffer_size
  ({ self with
      m_data := mapUpdate tmphash [] (setEmplace FileData.lt ⟨file, w.file_size file⟩)
        self.m_data }, [Event.hash file])

/-- The inner loop of `BayanDataImpl::RemoveDuplicate` after its first, skipped, iteration:
a file of the size of `cmpfile` is removed and logged, a file of another size becomes the new
`cmpfile`. -/
def removeSameSize (w : World P D) : FileData P → List (FileData P) → List (Event P) × Bool
  | _, [] => ([], true)
  | cmpfile, file :: rest =>
    if cmpfile.size = file.size then
      match w.remove file.path with
      | RemoveOutcome.error => ([Event.remove file.path], false)
      | _ =>
        (Event.remove file.path :: Event.logRemoved file.path ::
          (removeSameSize w cmpfile rest).1, (removeSameSize w cmpfile rest).2)
    else removeSameSize w file rest

/-- The method `BayanDataImpl::RemoveDuplicate`. -/
def BayanDataImpl.RemoveDuplicate (w : World P D) (self : BayanDataImpl P D) :
    List (Event P) × Bool :=
  forEach (fun (hashcode : D × List (FileData P)) =>
    match hashcode.2 with
    | [] => ([], true)
    | cmpfile :: others => removeSameSize w cmpfile others) self.m_data

/-- The engine after a sequence of `Add` calls. -/
def BayanDataImpl.addAll (w : World P D) (self : BayanDataImpl P D) :
    List P → BayanDataImpl P D
  | [] => self
  | file :: rest => BayanDataImpl.addAll w (self.Add w file).1 rest

end HashFirst

/-! ## Paths -/

/-- A path `fs::path`, as the sequence of its elements (the names that iterating from
`begin()` to `end()` yields), for a relative path without redundant separators. -/
structure FsPath where
  elems : List String
  deriving DecidableEq

/-- The characters of the elements, the key of the comparison of paths. -/
def FsPath.key (p : FsPath) : List (List Char) := p.elems.map String.toList

/-- The comparison of `fs::path` (`path::compare`, which `std::set<fs::path>` orders by) goes
element by element, each element compared as a string. -/
instance : LinearOrder FsPath :=
  LinearOrder.lift' FsPath.key (by
    intro a b h
    cases a with
    | mk ea =>
      cases b with
      | mk eb =>
        have h2 : ea = eb := by
          refine List.map_injective_iff.mpr ?_ h
          intro x y hxy
          exact String.ext hxy
        rw [h2])

/-- The member `path::string()`: the elements joined by the separator. -/
def FsPath.string (p : FsPath) : String := "/".intercalate p.elems

/-- The member `path::filename()`: the last element. -/
def FsPath.filename (p : FsPath) : String := p.elems.getLast?.getD ""

/-! ## The file system and the regular expressions -/

/-- What the constructor and the walker ask the file system. Each of the three calls of the
walker comes with a flag telling whether the call throws `filesystem_error` (an unreadable
directory, a failing `stat`); nothing in the program catches it. -/
structure FileSystem where
  /-- The call `fs::exists(path)`. -/
  path_exists : FsPath → Bool
  /-- The call `fs::is_directory(status)`. -/
  is_directory : FsPath → Bool
  /-- The call `fs::is_regular_file(status)`. -/
  is_regular_file : FsPath → Bool
  /-- The entries that `fs::directory_iterator(dir)` yields, as paths. -/
  directory_iterator : FsPath → List FsPath
  /-- The call `fs::file_size(path)`. -/
  file_size : FsPath → Nat
  /-- Whether `fs::directory_iterator(dir)` throws. -/
  directory_iterator_throws : FsPath → Bool
  /-- Whether `entry.status()` throws. -/
  status_throws : FsPath → Bool
  /-- Whether `fs::file_size(entry)` throws. -/
  file_size_throws : FsPath → Bool

/-- The file system after `fs::remove(file)` removed a file: it exists no more and no
directory lists it. -/
def FileSystem.removeFile (fs : FileSystem) (file : FsPath) : FileSystem :=
  { fs with
    path_exists := fun p => if p = file then false else fs.path_exists p
    is_regular_file := fun p => if p = file then false else fs.is_regular_file p
    directory_iterator := fun d => (fs.directory_iterator d).filter (fun e => decide (e ≠ file)) }

/-- The file system after a list of files was removed. -/
def FileSystem.removeFiles (fs : FileSystem) : List FsPath → FileSystem
  | [] => fs
  | file :: rest => FileSystem.removeFiles (fs.removeFile file) rest

/-- The part of `<regex>` the program uses: the constructor `std::regex(text)`, which throws
`regex_error` on an ill-formed text (`none`), and `std::regex_search(subject, regex)`. -/
structure RegexLib (Rx : Type) where
  compile : String → Option Rx
  regex_search : String → Rx → Bool

/-! ## The class `Bayan` -/

/-- The template argument of the engine made by the constructor. -/
inductive HashKind where
  | CRC32HASH
  | MD5HASH
  | SHA1HASH
  deriving DecidableEq

/-- The fields of `Bayan`. `m_masks` is `none` for the default-constructed `std::regex`,
`m_filedata` is `none` for the null pointer. -/
structure Bayan (Rx : Type) where
  m_isValid : Bool
  m_haveMask : Bool
  m_dirs : List FsPath
  m_excluded : List FsPath
  m_depth : Nat
  m_minsize : Nat
  m_masks : Option Rx
  m_block : Nat
  m_hashalg : String
  m_filedata : Option HashKind

/-- The default constructor `Bayan::Bayan()`. -/
def Bayan.default {Rx : Type} : Bayan Rx :=
  { m_isValid := false, m_haveMask := false, m_dirs := [], m_excluded := [], m_depth := 0,
    m_minsize := 0, m_masks := none, m_block := 0, m_hashalg := "", m_filedata := none }

/-- The loop of the constructor that builds the text of the mask expression: the masks in
order, a `'|'` before each but the first. -/
def joinMasks : Bool → String → List String → String
  | _, ss, [] => ss
  | true, ss, mask :: rest => joinMasks false (ss ++ mask) rest
  | false, ss, mask :: rest => joinMasks false ((ss.push '|') ++ mask) rest

/-- The two loops of the constructor over `dirs` and `excluded`: the paths that exist and are
directories are collected until one is not, which ends the constructor (`false`). -/
def collectDirs (fs : FileSystem) : List FsPath → List FsPath × Bool
  | [] => ([], true)
  | path :: rest =>
    if fs.path_exists path && fs.is_directory path then
      (path :: (collectDirs fs rest).1, (collectDirs fs rest).2)
    else ([], false)

/-- The chain of comparisons of `hashalg` in the constructor. -/
def hashKindOf (hashalg : String) : Option HashKind :=
  if hashalg = "crc32" then some HashKind.CRC32HASH
  else if hashalg = "md5" then some HashKind.MD5HASH
  else if hashalg = "sha1" then some HashKind.SHA1HASH
  else none

/-- The constructor `Bayan::Bayan(dirs, excluded, depth, minsize, masks, block, hashalg)`; the
strings of `dirs` and `excluded` are given as the paths they convert to. The result is `none`
when `std::regex` throws: no object is made then. -/
def Bayan.new {Rx : Type} (lib : RegexLib Rx) (fs : FileSystem) (dirs excluded : List FsPath)
    (depth minsize : Nat) (masks : List String) (block : Nat) (hashalg : String) :
    Option (Bayan Rx) :=
  let init : Bayan Rx :=
    { m_isValid := true, m_haveMask := false, m_dirs := [], m_excluded := [], m_depth := depth,
      m_minsize := minsize, m_masks := none, m_block := block, m_hashalg := hashalg,
      m_filedata := none }
  match hashKindOf hashalg with
  | none => some { init with m_isValid := false }
  | some kind =>
    if block = 0 then some { init with m_filedata := some kind, m_isValid := false }
    else
      let masked : Option (Bayan Rx) :=
        if masks.isEmpty then some { init with m_filedata := some kind }
        else
          match lib.compile (joinMasks true "" masks) with
          | none => none
          | some rx =>
            some { init with m_filedata := some kind, m_haveMask := true, m_masks := some rx }
      match masked with
      | none => none
      | some b =>
        match collectDirs fs dirs with
        | (ds, false) => some { b with m_dirs := ds, m_isValid := false }
        | (ds, true) =>
          match collectDirs fs excluded with
          | (es, ok) => some { b with m_dirs := ds, m_excluded := es, m_isValid := ok }

/-- The branch of the loop of `ProcessFolder` for an entry that is not a directory: a regular
file of at least `m_minsize` bytes is handed to `Add` when no mask is configured or the mask
expression is found in its name. -/
def Bayan.fileBranch {Rx : Type} (lib : RegexLib Rx) (self : Bayan Rx) (fs : FileSystem)
    (entry : FsPath) : List (Event FsPath) × Bool :=
  if fs.is_regular_file entry then
    if fs.file_size_throws entry then ([], false)
    else if fs.file_size entry ≥ self.m_minsize then
      if !self.m_haveMask then ([Event.add entry], true)
      else
        match self.m_masks with
        | some rx =>
          if lib.regex_search entry.filename rx then ([Event.add entry], true) else ([], true)
        | none => ([], true)
    else ([], true)
  else ([], true)

/-- The method `Bayan::ProcessFolder`; the result lists the directories enumerated and the
files handed to `Add`, in order, and tells whether the call ran to its end (`false`: an
exception of the file system left it). -/
def Bayan.ProcessFolder {Rx : Type} (lib : RegexLib Rx) (self : Bayan Rx) (fs : FileSystem)
    (dir : FsPath) (current_depth : Nat) : List (Event FsPath) × Bool :=
  if current_depth ≤ self.m_depth then
    if fs.directory_iterator_throws dir then ([Event.enumerate dir], false)
    else
      match forEach (fun entry =>
          if fs.status_throws entry then ([], false)
          else if fs.is_directory entry then
            if entry ∉ self.m_excluded then
              Bayan.ProcessFolder lib self fs entry (current_depth + 1)
            else ([], true)
          else self.fileBranch lib fs entry) (fs.directory_iterator dir) with
      | (t, ok) => (Event.enumerate dir :: t, ok)
  else ([], true)
termination_by self.m_depth + 1 - current_depth

/-- The environment of a run that the file system does not hold: the hash functions of
`hash.h`, one for each engine, and the outcome of `fs::remove`. -/
structure Env (D : Type) where
  hash_func : HashKind → FsPath → Nat → D
  remove : FsPath → RemoveOutcome

/-- The loop of `Bayan::Run` over `m_dirs`: each directory is printed and walked from depth
0. -/
def Bayan.walk {Rx : Type} (lib : RegexLib Rx) (self : Bayan Rx) (fs : FileSystem) :
    List (Event FsPath) × Bool :=
  forEach (fun dir =>
    (Event.printDir dir :: (Bayan.ProcessFolder lib self fs dir 0).1,
      (Bayan.ProcessFolder lib self fs dir 0).2)) self.m_dirs

/-- The environment of the engine that `Run` uses: the sizes of the file system, the hash
function of the engine made by the constructor, the outcomes of `fs::remove`. -/
def Env.world {D : Type} (env : Env D) (fs : FileSystem) (kind : HashKind) : World FsPath D :=
  ⟨fs.file_size, env.hash_func kind, env.remove⟩

/-- The method `Bayan::Run`. The engine is the size-first one, fed with the `Add` calls of the
walk in their order; `RemoveDuplicate` is called when the walk ran to its end. -/
def Bayan.Run {Rx D : Type} [LinearOrder D] (lib : RegexLib Rx) (self : Bayan Rx)
    (fs : FileSystem) (env : Env D) : List (Event FsPath) × Bool :=
  if self.m_isValid then
    if (self.walk lib fs).2 then
      match self.m_filedata with
      | none => ((self.walk lib fs).1, false)
      | some kind =>
        let engine := BayanDataSizeFirstImpl.addAll (env.world fs kind) ⟨self.m_block, []⟩
          (addCalls (self.walk lib fs).1)
        (((self.walk lib fs).1 ++ (engine.RemoveDuplicate (env.world fs kind)).1),
          (engine.RemoveDuplicate (env.world fs kind)).2)
    else ((self.walk lib fs).1, false)
  else ([Event.logInvalid], true)

/-- The duplicate groups a run forms: those of its engine when `RemoveDuplicate` is called,
none when the object is invalid or an exception ended the walk. -/
def Bayan.groups {Rx D : Type} [LinearOrder D] (lib : RegexLib Rx) (self : Bayan Rx)
    (fs : FileSystem) (env : Env D) : List (List FsPath) :=
  if self.m_isValid then
    if (self.walk lib fs).2 then
      match self.m_filedata with
      | none => []
      | some kind =>
        (BayanDataSizeFirstImpl.addAll (env.world fs kind) ⟨self.m_block, []⟩
          (addCalls (self.walk lib fs).1)).groups (env.world fs kind)
    else []
  else []

/-- The directories that lie `k` levels below `dir` and that the walk may enter: each is a
directory entry, not in the exclusion list, of a directory one level higher (`k = 0`: `dir`
itself, whether excluded or not). -/
def levelDirs (fs : FileSystem) (excluded : List FsPath) (dir : FsPath) : Nat → List FsPath
  | 0 => [dir]
  | k + 1 =>
    ((fs.directory_iterator dir).filter (fun entry =>
      fs.is_directory entry && decide (entry ∉ excluded))).flatMap
      (fun entry => levelDirs fs excluded entry k)

/-- The candidate filter of `ProcessFolder` on a directory entry: not a directory, a regular
file, of size at least `m_minsize`, and, when masks are configured, with a name the mask
expression is found in. -/
def Bayan.isCandidate {Rx : Type} (lib : RegexLib Rx) (self : Bayan Rx) (fs : FileSystem)
    (entry : FsPath) : Bool :=
  !fs.is_directory entry && fs.is_regular_file entry &&
    decide (self.m_minsize ≤ fs.file_size entry) &&
    (!self.m_haveMask ||
      (match self.m_masks with
       | some rx => lib.regex_search entry.filename rx
       | none => false))

/-! ## A fragment of the ECMAScript grammar of `std::regex`

Patterns made of ordinary characters, the alternation bar and parentheses. The other pattern
characters of the grammar are outside the fragment. -/

/-- A pattern of the fragment. -/
inductive Re where
  | eps
  | chr (c : Char)
  | seq (a b : Re)
  | alt (a b : Re)
  deriving DecidableEq

/-- A disjunction being read: its finished alternatives and the one under construction. -/
structure Frame where
  done : List Re
  cur : Re
  deriving DecidableEq

/-- The pattern of a disjunction read to its end. -/
def Frame.close (f : Frame) : Re := f.done.foldr Re.alt f.cur

/-- One character of the pattern text, on the stack of the open disjunctions (innermost
first). A `')'` with no open group is an error. -/
def parseStep : List Frame → Char → Option (List Frame)
  | [], _ => none
  | f :: stack, c =>
    if c = '|' then some ({ done := f.done ++ [f.cur], cur := Re.eps } :: stack)
    else if c = '(' then some ({ done := [], cur := Re.eps } :: f :: stack)
    else if c = ')' then
      match stack with
      | [] => none
      | g :: below => some ({ g with cur := Re.seq g.cur f.close } :: below)
    else some ({ f with cur := Re.seq f.cur (Re.chr c) } :: stack)

/-- The pattern text read from left to right. -/
def parseRun : List Frame → List Char → Option (List Frame)
  | stack, [] => some stack
  | stack, c :: cs =>
    match parseStep stack c with
    | none => none
    | some next => parseRun next cs

/-- The constructor `std::regex(text)` on the fragment: an error when a `')'` has no open
group or a group is left open at the end. -/
def Re.compile (text : String) : Option Re :=
  match parseRun [{ done := [], cur := Re.eps }] text.toList with
  | some [f] => some f.close
  | _ => none

/-- The ways a pattern matches at the start of a subject: what is left of the subject after
each. -/
def Re.rests : Re → List Char → List (List Char)
  | Re.eps, s => [s]
  | Re.chr c, s =>
    match s with
    | [] => []
    | d :: t => if c = d then [t] else []
  | Re.seq a b, s => (Re.rests a s).flatMap (Re.rests b)
  | Re.alt a b, s => Re.rests a s ++ Re.rests b s

/-- Whether the pattern matches somewhere in the subject: `std::regex_search`. -/
def Re.search (subject : String) (r : Re) : Bool :=
  subject.toList.tails.any (fun s => !(Re.rests r s).isEmpty)

/-- The fragment as a regular expression library. -/
def Re.lib : RegexLib Re := ⟨Re.compile, Re.search⟩

/-- The size of a file is the number of its bytes and its digest the hash of its bytes:
the environment of an engine for files with the given contents. -/
def contentWorld {P D : Type} (content : P → List Nat) (hash : List Nat → Nat → D)
    (remove : P → RemoveOutcome) : World P D :=
  ⟨fun p => (content p).length, fun p block => hash (content p) block, remove⟩

/-- The path as one string, compared character by character: the order the paths would have
were they compared as strings. -/
def FsPath.stringLt (p q : FsPath) : Bool := decide (p.string.toList < q.string.toList)

/-! ## Predicates of the properties -/

/-- A comparison that orders a set strictly and totally. -/
structure StrictTotal {α : Type} (lt : α → α → Bool) : Prop where
  irrefl : ∀ a, lt a a = false
  trans : ∀ a b c, lt a b = true → lt b c = true → lt a c = true
  total : ∀ a b, lt a b = false → lt b a = false → a = b

/-- The keys of a map are strictly ascending. -/
def KeysSorted {κ ν : Type} [LinearOrder κ] (m : List (κ × ν)) : Prop :=
  m.Pairwise (fun a b => a.1 < b.1)

/-- The size table of the size-first engine holds the files `adds`: every bucket is the
ascending set of the added files of its size, and every added file has its bucket. -/
def SizeTable {P D : Type} [LinearOrder P] (w : World P D) (adds : List P)
    (m : List (Nat × List P)) : Prop :=
  KeysSorted m ∧
  (∀ s b, (s, b) ∈ m →
    b.Pairwise (fun x y => decide (x < y) = true) ∧ ∀ p, p ∈ b ↔ p ∈ adds ∧ w.file_size p = s) ∧
  ∀ p ∈ adds, ∃ b, (w.file_size p, b) ∈ m

/-- The local map `hashes` holds the files `seen`: every vector is, in order, the files seen
with its digest, it is not empty, and every file seen has its vector. -/
def HashTable {P D : Type} [LinearOrder D] (w : World P D) (buffer_size : Nat)
    (seen : List P) (hashes : List (D × List P)) : Prop :=
  KeysSorted hashes ∧
  (∀ h v, (h, v) ∈ hashes →
    v = seen.filter (fun f => decide (w.hash_func f buffer_size = h)) ∧ v ≠ []) ∧
  ∀ f ∈ seen, ∃ v, (w.hash_func f buffer_size, v) ∈ hashes

/-- A trace cut at the first `fs::remove` call that throws: the events up to that call, and
whether no call threw. -/
def cut {P : Type} (remove : P → RemoveOutcome) : List (Event P) → List (Event P) × Bool
  | [] => ([], true)
  | Event.remove p :: t =>
    if remove p = RemoveOutcome.error then ([Event.remove p], false)
    else (Event.remove p :: (cut remove t).1, (cut remove t).2)
  | e :: t => (e :: (cut remove t).1, (cut remove t).2)

/-- A trace in which every `fs::remove` call is followed at once by the line that logs the
path as removed, and no such line stands elsewhere. -/
inductive Paired {P : Type} : List (Event P) → Prop where
  | nil : Paired []
  | pair (p : P) (t : List (Event P)) : Paired t →
      Paired (Event.remove p :: Event.logRemoved p :: t)
  | hash (p : P) (t : List (Event P)) : Paired t → Paired (Event.hash p :: t)

/-- The world in which every `fs::remove` call succeeds. -/
def World.allRemoved {P D : Type} (w : World P D) : World P D :=
  { w with remove := fun _ => RemoveOutcome.removed }

/-- The digest table of the hash-first engine holds the files `adds`: every bucket is the
ascending set of the records of the added files of its digest, and every added file has its
bucket. -/
def DigestTable {P D : Type} [LinearOrder P] [LinearOrder D] (w : World P D) (block : Nat)
    (adds : List P) (m : List (D × List (FileData P))) : Prop :=
  KeysSorted m ∧
  (∀ d b, (d, b) ∈ m →
    b.Pairwise (fun x y => FileData.lt x y = true) ∧
    ∀ fd, fd ∈ b ↔ ∃ p ∈ adds, fd = ⟨p, w.file_size p⟩ ∧ w.hash_func p block = d) ∧
  ∀ p ∈ adds, ∃ b, (w.hash_func p block, b) ∈ m

/-- The stack of the open disjunctions with the alternatives `pre` put before those of the
outermost one. -/
def addBottom (pre : List Re) : List Frame → List Frame
  | [] => []
  | [f] => [{ f with done := pre ++ f.done }]
  | f :: g :: rest => f :: addBottom pre (g :: rest)

/-- A world in which every file has 3 bytes and the digest 7, and every removal succeeds. -/
def equalWorld : World FsPath Nat := ⟨fun _ => 3, fun _ _ => 7, fun _ => RemoveOutcome.removed⟩

/-- The file `photos/img.jpg`. -/
def photo : FsPath := ⟨["photos", "img.jpg"]⟩

/-- The file `photos-backup/img.jpg`. -/
def photoBackup : FsPath := ⟨["photos-backup", "img.jpg"]⟩

/-- The files `a`, `b`, `c` of the examples. -/
def fileA : FsPath := ⟨["a"]⟩

/-- See `fileA`. -/
def fileB : FsPath := ⟨["b"]⟩

/-- See `fileA`. -/
def fileC : FsPath := ⟨["c"]⟩

/-- The world `equalWorld` in which the removal of `b` throws. -/
def deniedWorld : World FsPath Nat :=
  ⟨fun _ => 3, fun _ _ => 7,
    fun p => if p = fileB then RemoveOutcome.error else RemoveOutcome.removed⟩

/-- The world `equalWorld` in which `b` is gone when it is to be removed. -/
def vanishedWorld : World FsPath Nat :=
  ⟨fun _ => 3, fun _ _ => 7,
    fun p => if p = fileB then RemoveOutcome.absent else RemoveOutcome.removed⟩

/-- A checksum as hash function: the sum of the bytes modulo `2 ^ 32`. -/
def sumHash (bytes : List Nat) (_block : Nat) : Nat := bytes.sum % 2 ^ 32

/-- The bytes of the example files: `a` holds `1 2`, every other file `2 1`. -/
def swappedContent (p : FsPath) : List Nat := if p = fileA then [1, 2] else [2, 1]

/-- The world of the files `swappedContent`, hashed by `sumHash`. -/
def swappedWorld : World FsPath Nat :=
  contentWorld swappedContent sumHash (fun _ => RemoveOutcome.removed)

/-- The directory `r`. -/
def dirR : FsPath := ⟨["r"]⟩

/-- The directory `r/x`. -/
def dirRX : FsPath := ⟨["r", "x"]⟩

/-- The directory `r/x/y`. -/
def dirRXY : FsPath := ⟨["r", "x", "y"]⟩

/-- The file `r/b`. -/
def fileRB : FsPath := ⟨["r", "b"]⟩

/-- The file `r/x/y/b`. -/
def fileRXYB : FsPath := ⟨["r", "x", "y", "b"]⟩

/-- A file system: the directory `r` holds the file `r/b` and the directory `r/x`, which holds
the directory `r/x/y`, which holds the file `r/x/y/b`; every file has one byte and no call
throws. -/
def treeFs : FileSystem where
  path_exists := fun p => decide (p ∈ [dirR, dirRX, dirRXY, fileRB, fileRXYB])
  is_directory := fun p => decide (p ∈ [dirR, dirRX, dirRXY])
  is_regular_file := fun p => decide (p ∈ [fileRB, fileRXYB])
  directory_iterator := fun p =>
    if p = dirR then [fileRB, dirRX]
    else if p = dirRX then [dirRXY]
    else if p = dirRXY then [fileRXYB]
    else []
  file_size := fun _ => 1
  directory_iterator_throws := fun _ => false
  status_throws := fun _ => false
  file_size_throws := fun _ => false

/-- An environment in which every file has the digest 7 and every removal succeeds. -/
def equalEnv : Env Nat := ⟨fun _ _ _ => 7, fun _ => RemoveOutcome.removed⟩

/-- The object the constructor makes for the directory `r`, depth 0, minimal size 1, no mask,
block size 4096 and `crc32`. -/
def shallowBayan : Bayan Re :=
  { m_isValid := true, m_haveMask := false, m_dirs := [dirR], m_excluded := [], m_depth := 0,
    m_minsize := 1, m_masks := none, m_block := 4096, m_hashalg := "crc32",
    m_filedata := some HashKind.CRC32HASH }

/-- The object `shallowBayan` with depth 2. -/
def deepBayan : Bayan Re := { shallowBayan with m_depth := 2 }

/-- A world in which `c` has 5 bytes and every other file 3, every file has the digest 7 and
every removal succeeds. -/
def mixedWorld : World FsPath Nat :=
  ⟨fun p => if p = fileC then 5 else 3, fun _ _ => 7, fun _ => RemoveOutcome.removed⟩

/-- The directory `locked`. -/
def dirLocked : FsPath := ⟨["locked"]⟩

/-- The file system `treeFs` with one more directory, `locked`, which exists and may not be
read: `fs::directory_iterator` throws on it. -/
def lockedFs : FileSystem :=
  { treeFs with
    path_exists := fun p => decide (p = dirLocked) || treeFs.path_exists p
    is_directory := fun p => decide (p = dirLocked) || treeFs.is_directory p
    directory_iterator_throws := fun p => decide (p = dirLocked) }

/-- The file `d` of the examples. -/
def fileD : FsPath := ⟨["d"]⟩

/-- A world of four files: `a` and `b` have 3 bytes and the digest 9, `c` and `d` have 5 bytes
and the digest 1. The removal of `b` throws in `deniedFirst`, the removal of `d` in
`deniedLast`. -/
def deniedFirst : World FsPath Nat :=
  ⟨fun p => if p = fileC ∨ p = fileD then 5 else 3,
    fun p _ => if p = fileC ∨ p = fileD then 1 else 9,
    fun p => if p = fileB then RemoveOutcome.error else RemoveOutcome.removed⟩

/-- See `deniedFirst`. -/
def deniedLast : World FsPath Nat :=
  ⟨fun p => if p = fileC ∨ p = fileD then 5 else 3,
    fun p _ => if p = fileC ∨ p = fileD then 1 else 9,
    fun p => if p = fileD then RemoveOutcome.error else RemoveOutcome.removed⟩

/-- The body of the loop of `ProcessFolder` at the depth `current_depth`. -/
def Bayan.entryBody {Rx : Type} (lib : RegexLib Rx) (self : Bayan Rx) (fs : FileSystem)
    (current_depth : Nat) (entry : FsPath) : List (Event FsPath) × Bool :=
  if fs.status_throws entry then ([], false)
  else if fs.is_directory entry then
    if entry ∉ self.m_excluded then Bayan.ProcessFolder lib self fs entry (current_depth + 1)
    else ([], true)
  else self.fileBranch lib fs entry

set_option linter.unusedSectionVars false

/-! ## Ordered containers -/

theorem strictTotal_decide_lt {P : Type} [LinearOrder P] :
    StrictTotal (fun a b : P => decide (a < b)) where
  irrefl := by intro a; simp
  trans := by
    intro a b c hab hbc
    simp only [decide_eq_true_eq] at *
    exact lt_trans hab hbc
  total := by
    intro a b hab hba
    simp only [decide_eq_false_iff_not, not_lt] at *
    exact le_antisymm hba hab

theorem strictTotal_fileData_lt {P : Type} [LinearOrder P] :
    StrictTotal (@FileData.lt P _) where
  irrefl := by intro a; simp [FileData.lt]
  trans := by
    intro a b c hab hbc
    unfold FileData.lt at *
    by_cases h1 : a.size = b.size <;> by_cases h2 : b.size = c.size <;>
      by_cases h3 : a.size = c.size <;> simp_all <;> try omega
    exact lt_trans hab hbc
  total := by
    intro a b hab hba
    unfold FileData.lt at *
    cases a with
    | mk pa sa =>
      cases b with
      | mk pb sb =>
        by_cases h1 : sa = sb
        · simp_all
          exact le_antisymm hba hab
        · have h1' : sb ≠ sa := fun h => h1 h.symm
          simp_all
          omega

theorem mem_setEmplace {α : Type} {lt : α → α → Bool} (h : StrictTotal lt) (x y : α)
    (s : List α) : y ∈ setEmplace lt x s ↔ y = x ∨ y ∈ s := by
  induction s with
  | nil => simp [setEmplace]
  | cons z zs ih =>
    unfold setEmplace
    cases h1 : lt x z
    · cases h2 : lt z x
      · have hxz : x = z := h.total x z h1 h2
        subst hxz
        simp only [Bool.false_eq_true, if_false, List.mem_cons]
        tauto
      · simp only [Bool.false_eq_true, if_true, if_false, List.mem_cons, ih]
        tauto
    · simp only [if_true, List.mem_cons]

theorem pairwise_setEmplace {α : Type} {lt : α → α → Bool} (h : StrictTotal lt) (x : α)
    (s : List α) (hs : s.Pairwise (fun a b => lt a b = true)) :
    (setEmplace lt x s).Pairwise (fun a b => lt a b = true) := by
  induction s with
  | nil => simp [setEmplace]
  | cons z zs ih =>
    unfold setEmplace
    rw [List.pairwise_cons] at hs
    cases h1 : lt x z
    · cases h2 : lt z x
      · simp only [Bool.false_eq_true, if_false]
        exact List.pairwise_cons.mpr hs
      · simp only [Bool.false_eq_true, if_true, if_false]
        refine List.pairwise_cons.mpr ⟨?_, ih hs.2⟩
        intro a ha
        rcases (mem_setEmplace h x a zs).mp ha with rfl | ha
        · exact h2
        · exact hs.1 a ha
    · simp only [if_true]
      refine List.pairwise_cons.mpr ⟨?_, List.pairwise_cons.mpr hs⟩
      intro a ha
      rcases List.mem_cons.mp ha with rfl | ha
      · exact h1
      · exact h.trans _ _ _ h1 (hs.1 a ha)

theorem keysSorted_mapUpdate {κ ν : Type} [LinearOrder κ] (k : κ) (dflt : ν) (f : ν → ν)
    (m : List (κ × ν)) (hm : KeysSorted m) : KeysSorted (mapUpdate k dflt f m) ∧
      ∀ e ∈ mapUpdate k dflt f m, e.1 = k ∨ e ∈ m := by
  induction m with
  | nil => simp [mapUpdate, KeysSorted]
  | cons e m ih =>
    obtain ⟨k', v⟩ := e
    unfold KeysSorted at hm
    rw [List.pairwise_cons] at hm
    unfold mapUpdate
    by_cases h1 : k < k'
    · simp only [h1, if_true]
      constructor
      · refine List.pairwise_cons.mpr ⟨?_, List.pairwise_cons.mpr hm⟩
        intro a ha
        rcases List.mem_cons.mp ha with rfl | ha
        · exact h1
        · exact lt_trans h1 (hm.1 a ha)
      · intro e he
        rcases List.mem_cons.mp he with rfl | he
        · exact Or.inl rfl
        · exact Or.inr he
    · by_cases h2 : k' < k
      · simp only [h1, h2, if_true, if_false]
        obtain ⟨ih1, ih2⟩ := ih hm.2
        constructor
        · refine List.pairwise_cons.mpr ⟨?_, ih1⟩
          intro a ha
          rcases ih2 a ha with h | h
          · rw [h]; exact h2
          · exact hm.1 a h
        · intro e he
          rcases List.mem_cons.mp he with rfl | he
          · exact Or.inr (List.mem_cons_self _ _)
          · rcases ih2 e he with h | h
            · exact Or.inl h
            · exact Or.inr (List.mem_cons_of_mem _ h)
      · simp only [h1, h2, if_false]
        have hk : k' = k := le_antisymm (not_lt.mp h1) (not_lt.mp h2)
        constructor
        · exact List.pairwise_cons.mpr hm
        · intro e he
          rcases List.mem_cons.mp he with rfl | he
          · exact Or.inl hk
          · exact Or.inr (List.mem_cons_of_mem _ he)

/-- The pairs of a map after `m[k] = f(m[k])`: the pair of `k` holds `f` of the old value, or
of the default when there was none, and the other pairs are the old ones. -/
theorem mem_mapUpdate {κ ν : Type} [LinearOrder κ] (k : κ) (dflt : ν) (f : ν → ν)
    (m : List (κ × ν)) (hm : KeysSorted m) (k' : κ) (v' : ν) :
    (k', v') ∈ mapUpdate k dflt f m ↔
      (k' = k ∧ ((∃ v, (k, v) ∈ m ∧ v' = f v) ∨ ((∀ v, (k, v) ∉ m) ∧ v' = f dflt))) ∨
      (k' ≠ k ∧ (k', v') ∈ m) := by
  induction m with
  | nil =>
    simp only [mapUpdate, List.mem_singleton, Prod.mk.injEq, List.not_mem_nil, and_false,
      exists_false, not_false_eq_true, implies_true, true_and, false_or, or_false, false_and]
  | cons e m ih =>
    obtain ⟨k0, v0⟩ := e
    unfold KeysSorted at hm
    rw [List.pairwise_cons] at hm
    have hlt : ∀ v, (k0, v) ∉ m := fun v hv => lt_irrefl _ (hm.1 (k0, v) hv)
    unfold mapUpdate
    by_cases h1 : k < k0
    · simp only [h1, if_true]
      have hno : ∀ v, (k, v) ∉ (k0, v0) :: m := by
        intro v hv
        rcases List.mem_cons.mp hv with h | h
        · rw [Prod.mk.injEq] at h
          exact absurd h.1 (ne_of_lt h1)
        · exact lt_asymm h1 (hm.1 _ h)
      constructor
      · intro hin
        rcases List.mem_cons.mp hin with h | h
        · rw [Prod.mk.injEq] at h
          exact Or.inl ⟨h.1, Or.inr ⟨hno, h.2⟩⟩
        · by_cases hk : k' = k
          · rw [hk] at h; exact absurd h (hno v')
          · exact Or.inr ⟨hk, h⟩
      · rintro (⟨hk, ⟨v, hv, _⟩ | ⟨_, hv⟩⟩ | ⟨_, h⟩)
        · exact absurd hv (hno v)
        · rw [hk, hv]; exact List.mem_cons_self _ _
        · exact List.mem_cons_of_mem _ h
    · by_cases h2 : k0 < k
      · simp only [h1, h2, if_true, if_false]
        have hne : k0 ≠ k := ne_of_lt h2
        rw [List.mem_cons, ih hm.2]
        constructor
        · rintro (heq | ⟨hk, ⟨v, hv, hv'⟩ | ⟨hno, hv'⟩⟩ | ⟨hk, h⟩)
          · rw [Prod.mk.injEq] at heq
            refine Or.inr ⟨by rw [heq.1]; exact hne, ?_⟩
            rw [heq.1, heq.2]; exact List.mem_cons_self _ _
          · exact Or.inl ⟨hk, Or.inl ⟨v, List.mem_cons_of_mem _ hv, hv'⟩⟩
          · refine Or.inl ⟨hk, Or.inr ⟨?_, hv'⟩⟩
            intro v hv
            rcases List.mem_cons.mp hv with h | hv
            · rw [Prod.mk.injEq] at h
              exact hne h.1.symm
            · exact hno v hv
          · exact Or.inr ⟨hk, List.mem_cons_of_mem _ h⟩
        · rintro (⟨hk, ⟨v, hv, hv'⟩ | ⟨hno, hv'⟩⟩ | ⟨hk, h⟩)
          · rcases List.mem_cons.mp hv with h | hv
            · rw [Prod.mk.injEq] at h
              exact absurd h.1.symm hne
            · exact Or.inr (Or.inl ⟨hk, Or.inl ⟨v, hv, hv'⟩⟩)
          · refine Or.inr (Or.inl ⟨hk, Or.inr ⟨?_, hv'⟩⟩)
            intro v hv
            exact hno v (List.mem_cons_of_mem _ hv)
          · rcases List.mem_cons.mp h with h | h
            · exact Or.inl h
            · exact Or.inr (Or.inr ⟨hk, h⟩)
      · simp only [h1, h2, if_false]
        have hk0 : k0 = k := le_antisymm (not_lt.mp h1) (not_lt.mp h2)
        constructor
        · intro hin
          rcases List.mem_cons.mp hin with h | h
          · rw [Prod.mk.injEq] at h
            refine Or.inl ⟨h.1.trans hk0, Or.inl ⟨v0, ?_, h.2⟩⟩
            rw [← hk0]; exact List.mem_cons_self _ _
          · refine Or.inr ⟨?_, List.mem_cons_of_mem _ h⟩
            intro hk
            rw [hk, ← hk0] at h
            exact hlt _ h
        · rintro (⟨hk, ⟨v, hv, hv'⟩ | ⟨hno, _⟩⟩ | ⟨hk, h⟩)
          · rcases List.mem_cons.mp hv with h | hv
            · rw [Prod.mk.injEq] at h
              rw [hk, hv', h.2, ← hk0]; exact List.mem_cons_self _ _
            · rw [← hk0] at hv; exact absurd hv (hlt v)
          · refine absurd ?_ (hno v0)
            rw [← hk0]; exact List.mem_cons_self _ _
          · rcases List.mem_cons.mp h with h | h
            · rw [Prod.mk.injEq] at h
              exact absurd (h.1.trans hk0) hk
            · exact List.mem_cons_of_mem _ h


/-! ## Traces -/

theorem forEach_of_ok {α P : Type} (body : α → List (Event P) × Bool) (l : List α)
    (h : ∀ x ∈ l, (body x).2 = true) :
    forEach body l = (l.flatMap (fun x => (body x).1), true) := by
  induction l with
  | nil => rfl
  | cons x xs ih =>
    have hx : (body x).2 = true := h x (List.mem_cons_self _ _)
    have hxs := ih (fun y hy => h y (List.mem_cons_of_mem _ hy))
    unfold forEach
    rcases hb : body x with ⟨t, ok⟩
    rw [hb] at hx
    simp only at hx
    subst hx
    simp only [hxs, List.flatMap_cons, hb]

theorem mem_removeCalls {P : Type} (p : P) (t : List (Event P)) :
    p ∈ removeCalls t ↔ Event.remove p ∈ t := by
  induction t with
  | nil => simp [removeCalls]
  | cons e t ih => cases e <;> simp [removeCalls, ih]

theorem mem_hashCalls {P : Type} (p : P) (t : List (Event P)) :
    p ∈ hashCalls t ↔ Event.hash p ∈ t := by
  induction t with
  | nil => simp [hashCalls]
  | cons e t ih => cases e <;> simp [hashCalls, ih]

theorem mem_addCalls {P : Type} (p : P) (t : List (Event P)) :
    p ∈ addCalls t ↔ Event.add p ∈ t := by
  induction t with
  | nil => simp [addCalls]
  | cons e t ih => cases e <;> simp [addCalls, ih]

theorem mem_enumerateCalls {P : Type} (p : P) (t : List (Event P)) :
    p ∈ enumerateCalls t ↔ Event.enumerate p ∈ t := by
  induction t with
  | nil => simp [enumerateCalls]
  | cons e t ih => cases e <;> simp [enumerateCalls, ih]

theorem removeCalls_append {P : Type} (a b : List (Event P)) :
    removeCalls (a ++ b) = removeCalls a ++ removeCalls b := by
  induction a with
  | nil => rfl
  | cons e a ih => cases e <;> simp [removeCalls, ih]

theorem hashCalls_append {P : Type} (a b : List (Event P)) :
    hashCalls (a ++ b) = hashCalls a ++ hashCalls b := by
  induction a with
  | nil => rfl
  | cons e a ih => cases e <;> simp [hashCalls, ih]

theorem addCalls_append {P : Type} (a b : List (Event P)) :
    addCalls (a ++ b) = addCalls a ++ addCalls b := by
  induction a with
  | nil => rfl
  | cons e a ih => cases e <;> simp [addCalls, ih]

theorem removedLog_append {P : Type} (a b : List (Event P)) :
    removedLog (a ++ b) = removedLog a ++ removedLog b := by
  induction a with
  | nil => rfl
  | cons e a ih => cases e <;> simp [removedLog, ih]

/-! ## The size table of the size-first engine -/

section SizeFirstProps

variable {P D : Type} [LinearOrder P] [LinearOrder D]

theorem sizeTable_nil (w : World P D) : SizeTable w [] [] := by
  refine ⟨List.Pairwise.nil, ?_, ?_⟩
  · intro s b h; exact absurd h (List.not_mem_nil _)
  · intro p h; exact absurd h (List.not_mem_nil _)

theorem sizeTable_add (w : World P D) (adds : List P) (m : List (Nat × List P))
    (h : SizeTable w adds m) (file : P) :
    SizeTable w (adds ++ [file])
      (mapUpdate (w.file_size file) [] (setEmplace (fun a b => decide (a < b)) file) m) := by
  obtain ⟨hk, hb, hall⟩ := h
  refine ⟨(keysSorted_mapUpdate _ _ _ m hk).1, ?_, ?_⟩
  · intro s b hsb
    rw [mem_mapUpdate _ _ _ m hk] at hsb
    rcases hsb with ⟨hs, ⟨v, hv, hbv⟩ | ⟨hno, hbv⟩⟩ | ⟨hs, hin⟩
    · obtain ⟨hsorted, hmem⟩ := hb _ _ hv
      subst hbv
      refine ⟨pairwise_setEmplace strictTotal_decide_lt _ _ hsorted, ?_⟩
      intro p
      rw [mem_setEmplace strictTotal_decide_lt, hmem, List.mem_append, List.mem_singleton, hs]
      constructor
      · rintro (rfl | ⟨h1, h2⟩)
        · exact ⟨Or.inr rfl, rfl⟩
        · exact ⟨Or.inl h1, h2⟩
      · rintro ⟨h1 | h1, h2⟩
        · exact Or.inr ⟨h1, h2⟩
        · exact Or.inl h1
    · subst hbv
      refine ⟨by simp [setEmplace], ?_⟩
      intro p
      simp only [setEmplace, List.mem_singleton, List.mem_append]
      constructor
      · rintro rfl
        exact ⟨Or.inr rfl, hs.symm⟩
      · rintro ⟨h1 | h1, h2⟩
        · obtain ⟨b', hb'⟩ := hall p h1
          rw [h2, hs] at hb'
          exact absurd hb' (hno b')
        · exact h1
    · obtain ⟨hsorted, hmem⟩ := hb _ _ hin
      refine ⟨hsorted, ?_⟩
      intro p
      rw [hmem, List.mem_append, List.mem_singleton]
      constructor
      · rintro ⟨h1, h2⟩
        exact ⟨Or.inl h1, h2⟩
      · rintro ⟨h1 | h1, h2⟩
        · exact ⟨h1, h2⟩
        · rw [h1] at h2
          exact absurd h2.symm hs
  · intro p hp
    rcases List.mem_append.mp hp with hp | hp
    · obtain ⟨b, hb'⟩ := hall p hp
      by_cases hs : w.file_size p = w.file_size file
      · refine ⟨setEmplace (fun a b => decide (a < b)) file b, ?_⟩
        rw [mem_mapUpdate _ _ _ m hk]
        rw [hs] at hb'
        exact Or.inl ⟨hs, Or.inl ⟨b, hb', rfl⟩⟩
      · refine ⟨b, ?_⟩
        rw [mem_mapUpdate _ _ _ m hk]
        exact Or.inr ⟨hs, hb'⟩
    · rw [List.mem_singleton] at hp
      subst hp
      by_cases hex : ∃ v, (w.file_size p, v) ∈ m
      · obtain ⟨v, hv⟩ := hex
        refine ⟨setEmplace (fun a b => decide (a < b)) p v, ?_⟩
        rw [mem_mapUpdate _ _ _ m hk]
        exact Or.inl ⟨rfl, Or.inl ⟨v, hv, rfl⟩⟩
      · refine ⟨setEmplace (fun a b => decide (a < b)) p [], ?_⟩
        rw [mem_mapUpdate _ _ _ m hk]
        exact Or.inl ⟨rfl, Or.inr ⟨fun v hv => hex ⟨v, hv⟩, rfl⟩⟩

theorem sizeTable_addAll (w : World P D) (adds : List P) (seen : List P)
    (self : BayanDataSizeFirstImpl P) (h : SizeTable w seen self.m_data) :
    SizeTable w (seen ++ adds) (BayanDataSizeFirstImpl.addAll w self adds).m_data ∧
      (BayanDataSizeFirstImpl.addAll w self adds).buffer_size = self.buffer_size := by
  induction adds generalizing seen self with
  | nil => simpa [BayanDataSizeFirstImpl.addAll] using h
  | cons file rest ih =>
    have hstep := sizeTable_add w seen self.m_data h file
    have := ih (seen ++ [file]) (self.Add w file).1 hstep
    simpa [BayanDataSizeFirstImpl.addAll, BayanDataSizeFirstImpl.Add] using this

/-- The size table after the `Add` calls `adds` on a fresh engine. -/
theorem sizeTable_fresh (w : World P D) (block : Nat) (adds : List P) :
    SizeTable w adds (BayanDataSizeFirstImpl.addAll w ⟨block, []⟩ adds).m_data ∧
      (BayanDataSizeFirstImpl.addAll w ⟨block, []⟩ adds).buffer_size = block := by
  simpa using sizeTable_addAll w adds [] ⟨block, []⟩ (sizeTable_nil w)

/-! ## The digest buckets -/

theorem hashTable_nil (w : World P D) (block : Nat) : HashTable w block [] [] := by
  refine ⟨List.Pairwise.nil, ?_, ?_⟩
  · intro s b h; exact absurd h (List.not_mem_nil _)
  · intro p h; exact absurd h (List.not_mem_nil _)

theorem hashTable_step (w : World P D) (block : Nat) (seen : List P) (hashes : List (D × List P))
    (h : HashTable w block seen hashes) (file : P) :
    HashTable w block (seen ++ [file])
      (mapUpdate (w.hash_func file block) [] (fun v => v ++ [file]) hashes) := by
  obtain ⟨hk, hb, hall⟩ := h
  refine ⟨(keysSorted_mapUpdate _ _ _ hashes hk).1, ?_, ?_⟩
  · intro d v hdv
    rw [mem_mapUpdate _ _ _ hashes hk] at hdv
    rcases hdv with ⟨hd, ⟨v0, hv0, hv⟩ | ⟨hno, hv⟩⟩ | ⟨hd, hin⟩
    · obtain ⟨hfilter, _⟩ := hb _ _ hv0
      subst hv
      refine ⟨?_, by simp⟩
      rw [List.filter_append, hfilter, hd]
      simp
    · subst hv
      refine ⟨?_, by simp⟩
      rw [List.filter_append, hd]
      have hnone : seen.filter (fun f => decide (w.hash_func f block = w.hash_func file block))
          = [] := by
        rw [List.filter_eq_nil_iff]
        intro f hf hfd
        obtain ⟨v, hv⟩ := hall f hf
        rw [of_decide_eq_true hfd] at hv
        exact hno v hv
      rw [hnone]
      simp
    · obtain ⟨hfilter, hne⟩ := hb _ _ hin
      refine ⟨?_, hne⟩
      rw [List.filter_append, ← hfilter]
      have : [file].filter (fun f => decide (w.hash_func f block = d)) = [] := by
        rw [List.filter_eq_nil_iff]
        intro f hf hfd
        rw [List.mem_singleton] at hf
        subst hf
        exact hd (of_decide_eq_true hfd).symm
      rw [this, List.append_nil]
  · intro p hp
    rcases List.mem_append.mp hp with hp | hp
    · obtain ⟨v, hv⟩ := hall p hp
      by_cases hs : w.hash_func p block = w.hash_func file block
      · refine ⟨v ++ [file], ?_⟩
        rw [mem_mapUpdate _ _ _ hashes hk]
        rw [hs] at hv
        exact Or.inl ⟨hs, Or.inl ⟨v, hv, rfl⟩⟩
      · refine ⟨v, ?_⟩
        rw [mem_mapUpdate _ _ _ hashes hk]
        exact Or.inr ⟨hs, hv⟩
    · rw [List.mem_singleton] at hp
      subst hp
      by_cases hex : ∃ v, (w.hash_func p block, v) ∈ hashes
      · obtain ⟨v, hv⟩ := hex
        refine ⟨v ++ [p], ?_⟩
        rw [mem_mapUpdate _ _ _ hashes hk]
        exact Or.inl ⟨rfl, Or.inl ⟨v, hv, rfl⟩⟩
      · refine ⟨[] ++ [p], ?_⟩
        rw [mem_mapUpdate _ _ _ hashes hk]
        exact Or.inl ⟨rfl, Or.inr ⟨fun v hv => hex ⟨v, hv⟩, rfl⟩⟩

theorem hashTable_hashBuckets (w : World P D) (block : Nat) (files seen : List P)
    (hashes : List (D × List P)) (h : HashTable w block seen hashes) :
    HashTable w block (seen ++ files) (hashBuckets w block files hashes) := by
  induction files generalizing seen hashes with
  | nil => simpa [hashBuckets] using h
  | cons file rest ih =>
    have := ih (seen ++ [file]) _ (hashTable_step w block seen hashes h file)
    simpa [hashBuckets] using this

/-- The digest buckets of a size bucket. -/
theorem hashTable_bucket (w : World P D) (block : Nat) (files : List P) :
    HashTable w block files (hashBuckets w block files []) := by
  simpa using hashTable_hashBuckets w block files [] [] (hashTable_nil w block)

end SizeFirstProps


/-! ## What the size-first engine removes -/

section SizeFirstRemoval

variable {P D : Type} [LinearOrder P] [LinearOrder D]

/-- A world in which `fs::remove` never throws. -/
theorem removeAllButFirst_of_ok (w : World P D) (hok : ∀ p, w.remove p ≠ RemoveOutcome.error)
    (bucket : List P) :
    removeAllButFirst w bucket =
      (bucket.tail.flatMap (fun f => [Event.remove f, Event.logRemoved f]), true) := by
  cases bucket with
  | nil => rfl
  | cons first others =>
    unfold removeAllButFirst
    simp only [List.tail_cons]
    rw [forEach_of_ok]
    · congr 1
      apply List.flatMap_congr
      intro f _
      cases hf : w.remove f <;> simp_all
    · intro f _
      cases hf : w.remove f <;> simp_all

/-- The trace of `RemoveDuplicate` when no removal throws. -/
theorem sf_removeDuplicate_of_ok (w : World P D) (hok : ∀ p, w.remove p ≠ RemoveOutcome.error)
    (self : BayanDataSizeFirstImpl P) :
    self.RemoveDuplicate w =
      (self.m_data.flatMap (fun filesize =>
        if filesize.2.length > 1 then
          filesize.2.map Event.hash ++
            (hashBuckets w self.buffer_size filesize.2 []).flatMap (fun hash =>
              hash.2.tail.flatMap (fun f => [Event.remove f, Event.logRemoved f]))
        else []), true) := by
  unfold BayanDataSizeFirstImpl.RemoveDuplicate
  have hinner : ∀ hashes : List (D × List P),
      forEach (fun (hash : D × List P) => removeAllButFirst w hash.2) hashes =
        (hashes.flatMap (fun hash =>
          hash.2.tail.flatMap (fun f => [Event.remove f, Event.logRemoved f])), true) := by
    intro hashes
    rw [forEach_of_ok]
    · congr 1
      apply List.flatMap_congr
      intro h _
      rw [removeAllButFirst_of_ok w hok]
    · intro h _
      rw [removeAllButFirst_of_ok w hok]
  rw [forEach_of_ok]
  · congr 1
    apply List.flatMap_congr
    intro fsz _
    by_cases hlen : fsz.2.length > 1
    · simp only [hlen, if_true, hinner]
    · simp only [hlen, if_false]
  · intro fsz _
    by_cases hlen : fsz.2.length > 1
    · simp only [hlen, if_true, hinner]
    · simp only [hlen, if_false]

/-- In an ascending list the members after the first are those with a smaller member. -/
theorem mem_tail_of_sorted (v : List P) (hv : v.Pairwise (fun x y => decide (x < y) = true))
    (p : P) : p ∈ v.tail ↔ p ∈ v ∧ ∃ q ∈ v, q < p := by
  cases v with
  | nil => simp
  | cons first rest =>
    rw [List.pairwise_cons] at hv
    simp only [List.tail_cons, List.mem_cons]
    constructor
    · intro hp
      exact ⟨Or.inr hp, first, Or.inl rfl, of_decide_eq_true (hv.1 p hp)⟩
    · rintro ⟨hp | hp, q, hq, hqp⟩
      · subst hp
        rcases hq with hq | hq
        · subst hq; exact absurd hqp (lt_irrefl _)
        · exact absurd (lt_trans (of_decide_eq_true (hv.1 q hq)) hqp) (lt_irrefl _)
      · exact hp

/-- The files removed from a size bucket: those with a smaller file of the same digest. -/
theorem mem_bucket_removed (w : World P D) (block : Nat) (b : List P)
    (hb : b.Pairwise (fun x y => decide (x < y) = true)) (p : P) :
    (∃ hash ∈ hashBuckets w block b [], p ∈ hash.2.tail) ↔
      p ∈ b ∧ ∃ q ∈ b, w.hash_func q block = w.hash_func p block ∧ q < p := by
  obtain ⟨_, hbuckets, hall⟩ := hashTable_bucket w block b
  constructor
  · rintro ⟨⟨d, v⟩, hin, hp⟩
    obtain ⟨hv, _⟩ := hbuckets d v hin
    have hsorted : v.Pairwise (fun x y => decide (x < y) = true) := by
      rw [hv]; exact hb.filter _
    rw [mem_tail_of_sorted v hsorted] at hp
    obtain ⟨hpv, q, hqv, hqp⟩ := hp
    rw [hv, List.mem_filter] at hpv hqv
    refine ⟨hpv.1, q, hqv.1, ?_, hqp⟩
    rw [of_decide_eq_true hqv.2, of_decide_eq_true hpv.2]
  · rintro ⟨hp, q, hq, hqd, hqp⟩
    obtain ⟨v, hin⟩ := hall p hp
    obtain ⟨hv, _⟩ := hbuckets _ v hin
    have hsorted : v.Pairwise (fun x y => decide (x < y) = true) := by
      rw [hv]; exact hb.filter _
    refine ⟨_, hin, ?_⟩
    rw [mem_tail_of_sorted v hsorted]
    refine ⟨?_, q, ?_, hqp⟩
    · rw [hv, List.mem_filter]; exact ⟨hp, by simp⟩
    · rw [hv, List.mem_filter]; exact ⟨hq, by simp [hqd]⟩

theorem length_gt_one_of_mem_ne {α : Type} (l : List α) (a b : α) (ha : a ∈ l) (hb : b ∈ l)
    (hne : a ≠ b) : l.length > 1 := by
  match l, ha, hb with
  | [x], ha, hb =>
    rw [List.mem_singleton] at ha hb
    exact absurd (ha.trans hb.symm) hne
  | _ :: _ :: _, _, _ => simp

/-- The `fs::remove` calls of the size-first engine, when no removal throws: the added files
with a smaller added file of the same size and the same digest. -/
theorem sf_remove_iff (w : World P D) (hok : ∀ p, w.remove p ≠ RemoveOutcome.error)
    (block : Nat) (adds : List P) (p : P) :
    Event.remove p ∈ ((BayanDataSizeFirstImpl.addAll w ⟨block, []⟩ adds).RemoveDuplicate w).1 ↔
      p ∈ adds ∧ ∃ q ∈ adds, w.file_size q = w.file_size p ∧
        w.hash_func q block = w.hash_func p block ∧ q < p := by
  obtain ⟨⟨_, hbuckets, hall⟩, hblock⟩ := sizeTable_fresh w block adds
  rw [sf_removeDuplicate_of_ok w hok, hblock]
  simp only [List.mem_flatMap]
  constructor
  · rintro ⟨⟨s, b⟩, hin, he⟩
    obtain ⟨hsorted, hmem⟩ := hbuckets s b hin
    by_cases hlen : b.length > 1
    · simp only [hlen, if_true, List.mem_append, List.mem_map, List.mem_flatMap,
        List.mem_cons, List.mem_singleton, Event.remove.injEq, reduceCtorEq, and_false,
        exists_false, false_or, or_false, List.not_mem_nil] at he
      obtain ⟨hash, hhash, f, hf, rfl⟩ := he
      obtain ⟨hpb, q, hqb, hqd, hqp⟩ := (mem_bucket_removed w block b hsorted p).mp ⟨hash, hhash, hf⟩
      refine ⟨((hmem p).mp hpb).1, q, ((hmem q).mp hqb).1, ?_, hqd, hqp⟩
      rw [((hmem q).mp hqb).2, ((hmem p).mp hpb).2]
    · simp only [hlen, if_false, List.not_mem_nil] at he
  · rintro ⟨hp, q, hq, hqs, hqd, hqp⟩
    obtain ⟨b, hin⟩ := hall p hp
    obtain ⟨hsorted, hmem⟩ := hbuckets _ b hin
    have hpb : p ∈ b := (hmem p).mpr ⟨hp, rfl⟩
    have hqb : q ∈ b := (hmem q).mpr ⟨hq, hqs⟩
    have hlen : b.length > 1 := length_gt_one_of_mem_ne b q p hqb hpb (ne_of_lt hqp)
    refine ⟨_, hin, ?_⟩
    simp only [hlen, if_true, List.mem_append, List.mem_flatMap]
    right
    obtain ⟨hash, hhash, hf⟩ := (mem_bucket_removed w block b hsorted p).mpr ⟨hpb, q, hqb, hqd, hqp⟩
    exact ⟨hash, hhash, p, hf, by simp⟩

end SizeFirstRemoval


/-! ## Removals that throw -/

theorem cut_append {P : Type} (rm : P → RemoveOutcome) (a b : List (Event P)) :
    cut rm (a ++ b) =
      if (cut rm a).2 = true then ((cut rm a).1 ++ (cut rm b).1, (cut rm b).2)
      else cut rm a := by
  induction a with
  | nil => simp [cut]
  | cons e a ih =>
    cases e with
    | remove p =>
      by_cases hp : rm p = RemoveOutcome.error
      · simp [cut, hp]
      · simp only [List.cons_append, cut, hp, if_false, List.append_eq]
        rw [ih]
        by_cases hc : (cut rm a).2 = true
        · simp [hc]
        · simp [hc]
    | _ =>
      simp only [List.cons_append, cut, List.append_eq]
      rw [ih]
      by_cases hc : (cut rm a).2 = true
      · simp [hc]
      · simp [hc]

theorem forEach_cut {α P : Type} (rm : P → RemoveOutcome)
    (body body0 : α → List (Event P) × Bool) (l : List α)
    (h : ∀ x ∈ l, body x = cut rm (body0 x).1 ∧ (body0 x).2 = true) :
    forEach body l = cut rm (forEach body0 l).1 ∧ (forEach body0 l).2 = true := by
  induction l with
  | nil => simp [forEach, cut]
  | cons x xs ih =>
    obtain ⟨hx, hx0⟩ := h x (List.mem_cons_self _ _)
    obtain ⟨ih1, ih2⟩ := ih (fun y hy => h y (List.mem_cons_of_mem _ hy))
    rcases hb0 : body0 x with ⟨t0, ok0⟩
    rw [hb0] at hx hx0
    simp only at hx hx0
    subst hx0
    rcases hb : body x with ⟨t, ok⟩
    have hcut : cut rm t0 = (t, ok) := by rw [← hx, hb]
    unfold forEach
    rw [hb, hb0]
    simp only [ih2, and_true]
    rw [cut_append, hcut]
    cases ok with
    | true => simp [ih1]
    | false => simp

theorem cut_map_hash {P : Type} (rm : P → RemoveOutcome) (l : List P) (t : List (Event P)) :
    cut rm (l.map Event.hash ++ t) = (l.map Event.hash ++ (cut rm t).1, (cut rm t).2) := by
  induction l with
  | nil => simp
  | cons x xs ih => simp [cut, ih]

theorem cut_isPrefix {P : Type} (rm : P → RemoveOutcome) (t : List (Event P)) :
    (cut rm t).1 <+: t := by
  induction t with
  | nil => simp [cut]
  | cons e t ih =>
    cases e with
    | remove p =>
      by_cases hp : rm p = RemoveOutcome.error
      · simp [cut, hp]
      · simpa [cut, hp] using ih
    | _ => simpa [cut] using ih

theorem cut_of_completed {P : Type} (rm : P → RemoveOutcome) (t : List (Event P))
    (h : (cut rm t).2 = true) : (cut rm t).1 = t := by
  induction t with
  | nil => simp [cut]
  | cons e t ih =>
    cases e with
    | remove p =>
      by_cases hp : rm p = RemoveOutcome.error
      · simp [cut, hp] at h
      · simp only [cut, hp, if_false] at h ⊢
        rw [ih h]
    | _ =>
      simp only [cut] at h ⊢
      rw [ih h]

theorem cut_completed_iff {P : Type} (rm : P → RemoveOutcome) (t : List (Event P)) :
    (cut rm t).2 = true ↔ ∀ p ∈ removeCalls t, rm p ≠ RemoveOutcome.error := by
  induction t with
  | nil => simp [cut, removeCalls]
  | cons e t ih =>
    cases e with
    | remove p =>
      by_cases hp : rm p = RemoveOutcome.error
      · simp [cut, hp, removeCalls]
      · simp [cut, hp, removeCalls, ih]
    | _ => simp [cut, removeCalls, ih]

theorem paired_append {P : Type} (a b : List (Event P)) (ha : Paired a) (hb : Paired b) :
    Paired (a ++ b) := by
  induction ha with
  | nil => simpa using hb
  | pair p t _ ih => exact Paired.pair p _ ih
  | hash p t _ ih => exact Paired.hash p _ ih

theorem paired_flatMap {α P : Type} (l : List α) (f : α → List (Event P))
    (h : ∀ x ∈ l, Paired (f x)) : Paired (l.flatMap f) := by
  induction l with
  | nil => exact Paired.nil
  | cons x xs ih =>
    rw [List.flatMap_cons]
    exact paired_append _ _ (h x (List.mem_cons_self _ _))
      (ih (fun y hy => h y (List.mem_cons_of_mem _ hy)))

theorem paired_map_hash {P : Type} (l : List P) : Paired (l.map Event.hash) := by
  induction l with
  | nil => exact Paired.nil
  | cons x xs ih => exact Paired.hash x _ ih

/-- The removals attempted and the removals logged in a cut trace. -/
theorem cut_paired {P : Type} (rm : P → RemoveOutcome) (t : List (Event P)) (ht : Paired t) :
    removeCalls (cut rm t).1 =
        (removeCalls t).take
          (((removeCalls t).takeWhile (fun p => decide (rm p ≠ RemoveOutcome.error))).length + 1) ∧
      removedLog (cut rm t).1 =
        (removeCalls t).takeWhile (fun p => decide (rm p ≠ RemoveOutcome.error)) := by
  induction ht with
  | nil => simp [cut, removeCalls, removedLog]
  | pair p t _ ih =>
    by_cases hp : rm p = RemoveOutcome.error
    · simp [cut, hp, removeCalls, removedLog, List.takeWhile_cons]
    · simp [cut, hp, removeCalls, removedLog, List.takeWhile_cons, ih.1, ih.2]
  | hash p t _ ih =>
    simpa [cut, removeCalls, removedLog] using ih

section SizeFirstCut

variable {P D : Type} [LinearOrder P] [LinearOrder D]

theorem removeAllButFirst_cut (w : World P D) (bucket : List P) :
    removeAllButFirst w bucket = cut w.remove (removeAllButFirst w.allRemoved bucket).1 ∧
      (removeAllButFirst w.allRemoved bucket).2 = true := by
  cases bucket with
  | nil => simp [removeAllButFirst, cut]
  | cons first others =>
    unfold removeAllButFirst
    apply forEach_cut
    intro f _
    cases hf : w.remove f <;> simp [World.allRemoved, cut, hf]

/-- The trace of `RemoveDuplicate` is the trace of the run in which every removal succeeds,
cut at the first removal that throws. -/
theorem sf_removeDuplicate_cut (w : World P D) (self : BayanDataSizeFirstImpl P) :
    self.RemoveDuplicate w = cut w.remove (self.RemoveDuplicate w.allRemoved).1 ∧
      (self.RemoveDuplicate w.allRemoved).2 = true := by
  unfold BayanDataSizeFirstImpl.RemoveDuplicate
  apply forEach_cut
  intro fsz _
  by_cases hlen : fsz.2.length > 1
  · simp only [hlen, if_true]
    have hsame : hashBuckets w.allRemoved self.buffer_size fsz.2 [] =
        hashBuckets w self.buffer_size fsz.2 [] := by
      have : ∀ (files : List P) (acc : List (D × List P)),
          hashBuckets w.allRemoved self.buffer_size files acc =
            hashBuckets w self.buffer_size files acc := by
        intro files
        induction files with
        | nil => intro acc; rfl
        | cons f rest ih => intro acc; simp only [hashBuckets, ih]; rfl
      exact this _ _
    rw [hsame]
    obtain ⟨h1, h2⟩ := forEach_cut w.remove
      (fun (hash : D × List P) => removeAllButFirst w hash.2)
      (fun (hash : D × List P) => removeAllButFirst w.allRemoved hash.2)
      (hashBuckets w self.buffer_size fsz.2 [])
      (fun hash _ => removeAllButFirst_cut w hash.2)
    rcases h0 : forEach (fun (hash : D × List P) => removeAllButFirst w.allRemoved hash.2)
      (hashBuckets w self.buffer_size fsz.2 []) with ⟨t0, ok0⟩
    rw [h0] at h1 h2
    simp only at h1 h2
    rw [h1]
    simp only [cut_map_hash, h2, and_true]
  · simp [hlen, cut]

theorem sf_trace_paired (w : World P D) (self : BayanDataSizeFirstImpl P) :
    Paired (self.RemoveDuplicate w.allRemoved).1 := by
  rw [sf_removeDuplicate_of_ok w.allRemoved (by intro p; simp [World.allRemoved])]
  apply paired_flatMap
  intro fsz _
  by_cases hlen : fsz.2.length > 1
  · simp only [hlen, if_true]
    apply paired_append _ _ (paired_map_hash _)
    apply paired_flatMap
    intro hash _
    apply paired_flatMap
    intro f _
    exact Paired.pair f [] Paired.nil
  · simp only [hlen, if_false]
    exact Paired.nil

end SizeFirstCut


/-! ## The hashing work and the groups of the size-first engine -/

theorem hashCalls_flatMap {α P : Type} (l : List α) (f : α → List (Event P)) :
    hashCalls (l.flatMap f) = l.flatMap (fun x => hashCalls (f x)) := by
  induction l with
  | nil => rfl
  | cons x xs ih => simp [List.flatMap_cons, hashCalls_append, ih]

theorem hashCalls_map_hash {P : Type} (l : List P) : hashCalls (l.map Event.hash) = l := by
  induction l with
  | nil => rfl
  | cons x xs ih => simp [hashCalls, ih]

theorem hashCalls_of_paired_removals {α P : Type} (l : List α) (g : α → List P) :
    hashCalls (l.flatMap (fun hash =>
      (g hash).flatMap (fun f => [Event.remove f, Event.logRemoved f]))) = [] := by
  rw [hashCalls_flatMap]
  simp only [List.flatMap_eq_nil_iff]
  intro x _
  rw [hashCalls_flatMap]
  simp [hashCalls]

theorem exists_ne_of_length_gt_one {α : Type} (l : List α) (hl : l.length > 1) (hn : l.Nodup)
    (p : α) : ∃ q ∈ l, q ≠ p := by
  match l, hl, hn with
  | a :: b :: rest, _, hn =>
    by_cases ha : a = p
    · refine ⟨b, by simp, ?_⟩
      intro hb
      rw [List.nodup_cons] at hn
      exact hn.1 (by rw [ha, ← hb]; simp)
    · exact ⟨a, by simp, ha⟩

section SizeFirstHashing

variable {P D : Type} [LinearOrder P] [LinearOrder D]

theorem nodup_of_ascending (b : List P) (hb : b.Pairwise (fun x y => decide (x < y) = true)) :
    b.Nodup := by
  unfold List.Nodup
  exact hb.imp (fun h => ne_of_lt (of_decide_eq_true h))

/-- The hash calls of the run in which no removal throws: the members of the size buckets
with more than one member. -/
theorem sf_hashCalls_of_ok (w : World P D) (hok : ∀ p, w.remove p ≠ RemoveOutcome.error)
    (self : BayanDataSizeFirstImpl P) :
    hashCalls (self.RemoveDuplicate w).1 =
      self.m_data.flatMap (fun filesize =>
        if filesize.2.length > 1 then filesize.2 else []) := by
  rw [sf_removeDuplicate_of_ok w hok, hashCalls_flatMap]
  apply List.flatMap_congr
  intro fsz _
  by_cases hlen : fsz.2.length > 1
  · simp only [hlen, if_true, hashCalls_append, hashCalls_map_hash]
    rw [hashCalls_of_paired_removals _ (fun (hash : D × List P) => hash.2.tail)]
    simp
  · simp [hlen, hashCalls]

theorem sf_hashCalls_nodup (w : World P D) (hok : ∀ p, w.remove p ≠ RemoveOutcome.error)
    (block : Nat) (adds : List P) :
    (hashCalls ((BayanDataSizeFirstImpl.addAll w ⟨block, []⟩ adds).RemoveDuplicate w).1).Nodup := by
  obtain ⟨⟨hkeys, hbuckets, _⟩, _⟩ := sizeTable_fresh w block adds
  rw [sf_hashCalls_of_ok w hok, List.nodup_flatMap]
  constructor
  · intro fsz hin
    by_cases hlen : fsz.2.length > 1
    · simp only [hlen, if_true]
      exact nodup_of_ascending _ (hbuckets fsz.1 fsz.2 hin).1
    · simp [hlen]
  · unfold KeysSorted at hkeys
    refine List.Pairwise.imp_of_mem ?_ hkeys
    intro a b ha hb hab
    simp only [Function.onFun]
    intro p hpa hpb
    have h1 : p ∈ a.2 := by
      by_cases hlen : a.2.length > 1
      · simpa [hlen] using hpa
      · simp [hlen] at hpa
    have h2 : p ∈ b.2 := by
      by_cases hlen : b.2.length > 1
      · simpa [hlen] using hpb
      · simp [hlen] at hpb
    have e1 := (((hbuckets a.1 a.2 ha).2 p).mp h1).2
    have e2 := (((hbuckets b.1 b.2 hb).2 p).mp h2).2
    rw [← e1, ← e2] at hab
    exact lt_irrefl _ hab

theorem sf_hash_iff (w : World P D) (hok : ∀ p, w.remove p ≠ RemoveOutcome.error)
    (block : Nat) (adds : List P) (p : P) :
    p ∈ hashCalls ((BayanDataSizeFirstImpl.addAll w ⟨block, []⟩ adds).RemoveDuplicate w).1 ↔
      p ∈ adds ∧ ∃ q ∈ adds, q ≠ p ∧ w.file_size q = w.file_size p := by
  obtain ⟨⟨_, hbuckets, hall⟩, _⟩ := sizeTable_fresh w block adds
  rw [sf_hashCalls_of_ok w hok, List.mem_flatMap]
  constructor
  · rintro ⟨⟨s, b⟩, hin, hp⟩
    obtain ⟨hsorted, hmem⟩ := hbuckets s b hin
    by_cases hlen : b.length > 1
    · simp only [hlen, if_true] at hp
      obtain ⟨q, hq, hne⟩ := exists_ne_of_length_gt_one b hlen (nodup_of_ascending b hsorted) p
      refine ⟨((hmem p).mp hp).1, q, ((hmem q).mp hq).1, hne, ?_⟩
      rw [((hmem q).mp hq).2, ((hmem p).mp hp).2]
    · simp [hlen] at hp
  · rintro ⟨hp, q, hq, hne, hqs⟩
    obtain ⟨b, hin⟩ := hall p hp
    obtain ⟨_, hmem⟩ := hbuckets _ b hin
    have hpb : p ∈ b := (hmem p).mpr ⟨hp, rfl⟩
    have hqb : q ∈ b := (hmem q).mpr ⟨hq, hqs⟩
    have hlen : b.length > 1 := length_gt_one_of_mem_ne b q p hqb hpb hne
    exact ⟨_, hin, by simpa [hlen] using hpb⟩

/-- The hash calls of any run are among those of the run in which every removal succeeds. -/
theorem sf_hash_count_le (w : World P D) (self : BayanDataSizeFirstImpl P) (p : P) :
    (hashCalls (self.RemoveDuplicate w).1).count p ≤
      (hashCalls (self.RemoveDuplicate w.allRemoved).1).count p := by
  rw [(sf_removeDuplicate_cut w self).1]
  obtain ⟨rest, hrest⟩ := cut_isPrefix w.remove (self.RemoveDuplicate w.allRemoved).1
  conv_rhs => rw [← hrest, hashCalls_append, List.count_append]
  exact Nat.le_add_right _ _

/-- Two distinct files share a group exactly when both were added with the same size and the
same digest. -/
theorem sf_group_iff (w : World P D) (block : Nat) (adds : List P) (p q : P) (hne : p ≠ q) :
    (∃ g ∈ (BayanDataSizeFirstImpl.addAll w ⟨block, []⟩ adds).groups w, p ∈ g ∧ q ∈ g) ↔
      p ∈ adds ∧ q ∈ adds ∧ w.file_size p = w.file_size q ∧
        w.hash_func p block = w.hash_func q block := by
  obtain ⟨⟨_, hbuckets, hall⟩, hblock⟩ := sizeTable_fresh w block adds
  unfold BayanDataSizeFirstImpl.groups
  rw [hblock]
  constructor
  · rintro ⟨g, hg, hp, hq⟩
    rw [List.mem_flatMap] at hg
    obtain ⟨⟨s, b⟩, hin, hg⟩ := hg
    obtain ⟨_, hmem⟩ := hbuckets s b hin
    by_cases hlen : b.length > 1
    · simp only [hlen, if_true, List.mem_map] at hg
      obtain ⟨⟨d, v⟩, hdv, rfl⟩ := hg
      obtain ⟨hv, _⟩ := (hashTable_bucket w block b).2.1 d v hdv
      simp only at hp hq
      rw [hv, List.mem_filter] at hp hq
      refine ⟨((hmem p).mp hp.1).1, ((hmem q).mp hq.1).1, ?_, ?_⟩
      · rw [((hmem p).mp hp.1).2, ((hmem q).mp hq.1).2]
      · rw [of_decide_eq_true hp.2, of_decide_eq_true hq.2]
    · simp [hlen] at hg
  · rintro ⟨hp, hq, hs, hd⟩
    obtain ⟨b, hin⟩ := hall p hp
    obtain ⟨_, hmem⟩ := hbuckets _ b hin
    have hpb : p ∈ b := (hmem p).mpr ⟨hp, rfl⟩
    have hqb : q ∈ b := (hmem q).mpr ⟨hq, hs.symm⟩
    have hlen : b.length > 1 := length_gt_one_of_mem_ne b p q hpb hqb hne
    obtain ⟨v, hv⟩ := (hashTable_bucket w block b).2.2 p hpb
    obtain ⟨hvf, _⟩ := (hashTable_bucket w block b).2.1 _ v hv
    refine ⟨v, ?_, ?_, ?_⟩
    · rw [List.mem_flatMap]
      refine ⟨_, hin, ?_⟩
      simp only [hlen, if_true, List.mem_map]
      exact ⟨_, hv, rfl⟩
    · rw [hvf, List.mem_filter]; exact ⟨hpb, by simp⟩
    · rw [hvf, List.mem_filter]; exact ⟨hqb, by simp [hd]⟩

end SizeFirstHashing


/-! ## The hash-first engine -/

section HashFirstProps

variable {P D : Type} [LinearOrder P] [LinearOrder D]

theorem fileData_lt_iff (a b : FileData P) :
    FileData.lt a b = true ↔ a.size < b.size ∨ (a.size = b.size ∧ a.path < b.path) := by
  unfold FileData.lt
  by_cases h : a.size = b.size
  · simp [h]
  · simp only [ne_eq, h, not_false_eq_true, if_true, decide_eq_true_eq, false_and, or_false]

theorem digestTable_nil (w : World P D) (block : Nat) : DigestTable w block [] [] := by
  refine ⟨List.Pairwise.nil, ?_, ?_⟩
  · intro s b h; exact absurd h (List.not_mem_nil _)
  · intro p h; exact absurd h (List.not_mem_nil _)

theorem digestTable_add (w : World P D) (block : Nat) (adds : List P)
    (m : List (D × List (FileData P))) (h : DigestTable w block adds m) (file : P) :
    DigestTable w block (adds ++ [file])
      (mapUpdate (w.hash_func file block) []
        (setEmplace FileData.lt ⟨file, w.file_size file⟩) m) := by
  obtain ⟨hk, hb, hall⟩ := h
  refine ⟨(keysSorted_mapUpdate _ _ _ m hk).1, ?_, ?_⟩
  · intro d b hdb
    rw [mem_mapUpdate _ _ _ m hk] at hdb
    rcases hdb with ⟨hd, ⟨v, hv, hbv⟩ | ⟨hno, hbv⟩⟩ | ⟨hd, hin⟩
    · obtain ⟨hsorted, hmem⟩ := hb _ _ hv
      subst hbv
      refine ⟨pairwise_setEmplace strictTotal_fileData_lt _ _ hsorted, ?_⟩
      intro fd
      rw [mem_setEmplace strictTotal_fileData_lt, hmem, hd]
      constructor
      · rintro (rfl | ⟨p, hp, h1, h2⟩)
        · exact ⟨file, by simp, rfl, rfl⟩
        · exact ⟨p, by simp [hp], h1, h2⟩
      · rintro ⟨p, hp, h1, h2⟩
        rcases List.mem_append.mp hp with hp | hp
        · exact Or.inr ⟨p, hp, h1, h2⟩
        · rw [List.mem_singleton] at hp
          subst hp
          exact Or.inl h1
    · subst hbv
      refine ⟨by simp [setEmplace], ?_⟩
      intro fd
      simp only [setEmplace, List.mem_singleton]
      constructor
      · rintro rfl
        exact ⟨file, by simp, rfl, hd.symm⟩
      · rintro ⟨p, hp, h1, h2⟩
        rcases List.mem_append.mp hp with hp | hp
        · obtain ⟨b', hb'⟩ := hall p hp
          rw [h2, hd] at hb'
          exact absurd hb' (hno b')
        · rw [List.mem_singleton] at hp
          subst hp
          exact h1
    · obtain ⟨hsorted, hmem⟩ := hb _ _ hin
      refine ⟨hsorted, ?_⟩
      intro fd
      rw [hmem]
      constructor
      · rintro ⟨p, hp, h1, h2⟩
        exact ⟨p, by simp [hp], h1, h2⟩
      · rintro ⟨p, hp, h1, h2⟩
        rcases List.mem_append.mp hp with hp | hp
        · exact ⟨p, hp, h1, h2⟩
        · rw [List.mem_singleton] at hp
          subst hp
          exact absurd h2.symm hd
  · intro p hp
    rcases List.mem_append.mp hp with hp | hp
    · obtain ⟨b, hb'⟩ := hall p hp
      by_cases hs : w.hash_func p block = w.hash_func file block
      · refine ⟨setEmplace FileData.lt ⟨file, w.file_size file⟩ b, ?_⟩
        rw [mem_mapUpdate _ _ _ m hk]
        rw [hs] at hb'
        exact Or.inl ⟨hs, Or.inl ⟨b, hb', rfl⟩⟩
      · refine ⟨b, ?_⟩
        rw [mem_mapUpdate _ _ _ m hk]
        exact Or.inr ⟨hs, hb'⟩
    · rw [List.mem_singleton] at hp
      subst hp
      by_cases hex : ∃ v, (w.hash_func p block, v) ∈ m
      · obtain ⟨v, hv⟩ := hex
        refine ⟨setEmplace FileData.lt ⟨p, w.file_size p⟩ v, ?_⟩
        rw [mem_mapUpdate _ _ _ m hk]
        exact Or.inl ⟨rfl, Or.inl ⟨v, hv, rfl⟩⟩
      · refine ⟨setEmplace FileData.lt ⟨p, w.file_size p⟩ [], ?_⟩
        rw [mem_mapUpdate _ _ _ m hk]
        exact Or.inl ⟨rfl, Or.inr ⟨fun v hv => hex ⟨v, hv⟩, rfl⟩⟩

theorem digestTable_addAll (w : World P D) (adds : List P) (seen : List P)
    (self : BayanDataImpl P D) (h : DigestTable w self.buffer_size seen self.m_data) :
    DigestTable w self.buffer_size (seen ++ adds) (BayanDataImpl.addAll w self adds).m_data := by
  induction adds generalizing seen self with
  | nil => simpa [BayanDataImpl.addAll] using h
  | cons file rest ih =>
    have hstep := digestTable_add w self.buffer_size seen self.m_data h file
    have := ih (seen ++ [file]) (self.Add w file).1 hstep
    simpa [BayanDataImpl.addAll, BayanDataImpl.Add] using this

/-- The digest table after the `Add` calls `adds` on a fresh engine. -/
theorem digestTable_fresh (w : World P D) (block : Nat) (adds : List P) :
    DigestTable w block adds (BayanDataImpl.addAll w ⟨block, []⟩ adds).m_data := by
  simpa using digestTable_addAll w adds [] ⟨block, []⟩ (digestTable_nil w block)

theorem removeSameSize_completes (w : World P D) (hok : ∀ p, w.remove p ≠ RemoveOutcome.error)
    (c : FileData P) (rest : List (FileData P)) : (removeSameSize w c rest).2 = true := by
  induction rest generalizing c with
  | nil => rfl
  | cons f rest ih =>
    unfold removeSameSize
    by_cases hs : c.size = f.size
    · simp only [hs, if_true]
      cases hf : w.remove f.path
      · exact ih c
      · exact ih c
      · exact absurd hf (hok _)
    · simp only [hs, if_false]
      exact ih f

/-- The inner loop of the hash-first engine on an ascending bucket removes the records with a
record of the same size and a smaller path in the bucket. -/
theorem mem_removeSameSize (w : World P D) (hok : ∀ p, w.remove p ≠ RemoveOutcome.error)
    (c : FileData P) (rest : List (FileData P))
    (hs : (c :: rest).Pairwise (fun x y => FileData.lt x y = true)) (p : P) :
    Event.remove p ∈ (removeSameSize w c rest).1 ↔
      ∃ f ∈ rest, f.path = p ∧ ∃ g ∈ c :: rest, g.size = f.size ∧ g.path < f.path := by
  induction rest generalizing c with
  | nil => simp [removeSameSize]
  | cons f rest ih =>
    rw [List.pairwise_cons] at hs
    obtain ⟨hc, hrest⟩ := hs
    have hcf := (fileData_lt_iff c f).mp (hc f (List.mem_cons_self _ _))
    have hrest' := List.pairwise_cons.mp hrest
    unfold removeSameSize
    by_cases hsz : c.size = f.size
    · have hcfp : c.path < f.path := by
        rcases hcf with h | h
        · omega
        · exact h.2
      have hsorted : (c :: rest).Pairwise (fun x y => FileData.lt x y = true) :=
        List.pairwise_cons.mpr ⟨fun a ha => hc a (List.mem_cons_of_mem _ ha), hrest'.2⟩
      have hmem : Event.remove p ∈ (if c.size = f.size then
          match w.remove f.path with
          | RemoveOutcome.error => ([Event.remove f.path], false)
          | _ => (Event.remove f.path :: Event.logRemoved f.path ::
              (removeSameSize w c rest).1, (removeSameSize w c rest).2)
          else removeSameSize w f rest).1 ↔
          p = f.path ∨ Event.remove p ∈ (removeSameSize w c rest).1 := by
        simp only [hsz, if_true]
        cases hf : w.remove f.path
        · simp
        · simp
        · exact absurd hf (hok _)
      rw [hmem, ih c hsorted]
      constructor
      · rintro (rfl | ⟨f', hf', hp, g, hg, hgs, hgp⟩)
        · exact ⟨f, List.mem_cons_self _ _, rfl, c, List.mem_cons_self _ _, hsz, hcfp⟩
        · refine ⟨f', List.mem_cons_of_mem _ hf', hp, g, ?_, hgs, hgp⟩
          rcases List.mem_cons.mp hg with hg | hg
          · rw [hg]; exact List.mem_cons_self _ _
          · exact List.mem_cons_of_mem _ (List.mem_cons_of_mem _ hg)
      · rintro ⟨f', hf', hp, g, hg, hgs, hgp⟩
        rcases List.mem_cons.mp hf' with hf' | hf'
        · left; rw [← hp, hf']
        · right
          rcases List.mem_cons.mp hg with hg | hg
          · exact ⟨f', hf', hp, g, by rw [hg]; exact List.mem_cons_self _ _, hgs, hgp⟩
          · rcases List.mem_cons.mp hg with hg | hg
            · refine ⟨f', hf', hp, c, List.mem_cons_self _ _, ?_, ?_⟩
              · rw [hsz, ← hg, hgs]
              · rw [hg] at hgp; exact lt_trans hcfp hgp
            · exact ⟨f', hf', hp, g, List.mem_cons_of_mem _ hg, hgs, hgp⟩
    · have hlt : c.size < f.size := by
        rcases hcf with h | h
        · exact h
        · exact absurd h.1 hsz
      simp only [hsz, if_false]
      rw [ih f hrest]
      constructor
      · rintro ⟨f', hf', hp, g, hg, hgs, hgp⟩
        exact ⟨f', List.mem_cons_of_mem _ hf', hp, g, List.mem_cons_of_mem _ hg, hgs, hgp⟩
      · rintro ⟨f', hf', hp, g, hg, hgs, hgp⟩
        rcases List.mem_cons.mp hf' with hf' | hf'
        · subst hf'
          exfalso
          rcases List.mem_cons.mp hg with hg | hg
          · rw [hg] at hgs; exact hsz hgs
          · rcases List.mem_cons.mp hg with hg | hg
            · rw [hg] at hgp; exact lt_irrefl _ hgp
            · rcases (fileData_lt_iff f' g).mp (hrest'.1 g hg) with h | h
              · omega
              · exact lt_asymm h.2 hgp
        · have hff' := (fileData_lt_iff f f').mp (hrest'.1 f' hf')
          have hle : f.size ≤ f'.size := by
            rcases hff' with h | h
            · exact le_of_lt h
            · exact le_of_eq h.1
          rcases List.mem_cons.mp hg with hg | hg
          · rw [hg] at hgs; omega
          · exact ⟨f', hf', hp, g, hg, hgs, hgp⟩

/-- The `fs::remove` calls of the hash-first engine, when no removal throws: the added files
with a smaller added file of the same size and the same digest. -/
theorem hf_remove_iff (w : World P D) (hok : ∀ p, w.remove p ≠ RemoveOutcome.error)
    (block : Nat) (adds : List P) (p : P) :
    Event.remove p ∈ ((BayanDataImpl.addAll w ⟨block, []⟩ adds).RemoveDuplicate w).1 ↔
      p ∈ adds ∧ ∃ q ∈ adds, w.file_size q = w.file_size p ∧
        w.hash_func q block = w.hash_func p block ∧ q < p := by
  obtain ⟨_, hbuckets, hall⟩ := digestTable_fresh w block adds
  unfold BayanDataImpl.RemoveDuplicate
  rw [forEach_of_ok]
  · simp only [List.mem_flatMap]
    constructor
    · rintro ⟨⟨d, b⟩, hin, he⟩
      obtain ⟨hsorted, hmem⟩ := hbuckets d b hin
      cases b with
      | nil => simp at he
      | cons c rest =>
        simp only at he
        rw [mem_removeSameSize w hok c rest hsorted] at he
        obtain ⟨f, hf, hp, g, hg, hgs, hgp⟩ := he
        obtain ⟨p', hp', hfp, hpd⟩ := (hmem f).mp (List.mem_cons_of_mem _ hf)
        obtain ⟨q, hq, hgq, hqd⟩ := (hmem g).mp hg
        subst hfp hgq
        simp only at hp hgs hgp
        subst hp
        exact ⟨hp', q, hq, hgs, by rw [hqd, hpd], hgp⟩
    · rintro ⟨hp, q, hq, hqs, hqd, hqp⟩
      obtain ⟨b, hin⟩ := hall p hp
      obtain ⟨hsorted, hmem⟩ := hbuckets _ b hin
      have hpb : (⟨p, w.file_size p⟩ : FileData P) ∈ b := (hmem _).mpr ⟨p, hp, rfl, rfl⟩
      have hqb : (⟨q, w.file_size q⟩ : FileData P) ∈ b := (hmem _).mpr ⟨q, hq, rfl, hqd⟩
      refine ⟨_, hin, ?_⟩
      cases b with
      | nil => simp at hpb
      | cons c rest =>
        simp only
        rw [mem_removeSameSize w hok c rest hsorted]
        have hqltp : FileData.lt ⟨q, w.file_size q⟩ ⟨p, w.file_size p⟩ = true :=
          (fileData_lt_iff _ _).mpr (Or.inr ⟨hqs, hqp⟩)
        have hprest : (⟨p, w.file_size p⟩ : FileData P) ∈ rest := by
          rcases List.mem_cons.mp hpb with h | h
          · exfalso
            rw [List.pairwise_cons] at hsorted
            rcases List.mem_cons.mp hqb with h' | h'
            · rw [h, ← h'] at hqltp
              rw [strictTotal_fileData_lt.irrefl] at hqltp
              exact Bool.false_ne_true hqltp
            · have h1 := hsorted.1 _ h'
              rw [← h] at h1
              have h2 := strictTotal_fileData_lt.trans _ _ _ h1 hqltp
              rw [strictTotal_fileData_lt.irrefl] at h2
              exact Bool.false_ne_true h2
          · exact h
        exact ⟨_, hprest, rfl, _, hqb, hqs, hqp⟩
  · rintro ⟨d, b⟩ _
    cases b with
    | nil => rfl
    | cons c rest => exact removeSameSize_completes w hok c rest

end HashFirstProps


section HashFirstCut

variable {P D : Type} [LinearOrder P] [LinearOrder D]

theorem removeSameSize_cut (w : World P D) (c : FileData P) (rest : List (FileData P)) :
    removeSameSize w c rest = cut w.remove (removeSameSize w.allRemoved c rest).1 ∧
      (removeSameSize w.allRemoved c rest).2 = true := by
  induction rest generalizing c with
  | nil => simp [removeSameSize, cut]
  | cons f rest ih =>
    unfold removeSameSize
    by_cases hs : c.size = f.size
    · obtain ⟨ih1, ih2⟩ := ih c
      simp only [hs, if_true]
      have hall : w.allRemoved.remove f.path = RemoveOutcome.removed := rfl
      rw [hall]
      simp only [ih2, and_true]
      cases hf : w.remove f.path
      · simp only [cut, hf, reduceCtorEq, if_false]
        rw [ih1]
      · simp only [cut, hf, reduceCtorEq, if_false]
        rw [ih1]
      · simp only [cut, hf, if_true]
    · simp only [hs, if_false]
      exact ih f

/-- The trace of the hash-first `RemoveDuplicate` is the trace of the run in which every
removal succeeds, cut at the first removal that throws. -/
theorem hf_removeDuplicate_cut (w : World P D) (self : BayanDataImpl P D) :
    self.RemoveDuplicate w = cut w.remove (self.RemoveDuplicate w.allRemoved).1 ∧
      (self.RemoveDuplicate w.allRemoved).2 = true := by
  unfold BayanDataImpl.RemoveDuplicate
  apply forEach_cut
  rintro ⟨d, b⟩ _
  cases b with
  | nil => simp [cut]
  | cons c rest => exact removeSameSize_cut w c rest

theorem hf_addAll_allRemoved (w : World P D) (adds : List P) :
    ∀ self : BayanDataImpl P D,
      BayanDataImpl.addAll w.allRemoved self adds = BayanDataImpl.addAll w self adds := by
  induction adds with
  | nil => intro self; rfl
  | cons f rest ih => intro self; simp only [BayanDataImpl.addAll]; exact ih _

theorem sf_addAll_allRemoved (w : World P D) (adds : List P) :
    ∀ self : BayanDataSizeFirstImpl P,
      BayanDataSizeFirstImpl.addAll w.allRemoved self adds =
        BayanDataSizeFirstImpl.addAll w self adds := by
  induction adds with
  | nil => intro self; rfl
  | cons f rest ih => intro self; simp only [BayanDataSizeFirstImpl.addAll]; exact ih _

/-- Whatever the outcomes of the removals, the hash-first engine attempts to remove only added
files with a smaller added file of the same size and the same digest. -/
theorem hf_remove_sound (w : World P D) (block : Nat) (adds : List P) (p : P)
    (h : Event.remove p ∈ ((BayanDataImpl.addAll w ⟨block, []⟩ adds).RemoveDuplicate w).1) :
    p ∈ adds ∧ ∃ q ∈ adds, w.file_size q = w.file_size p ∧
      w.hash_func q block = w.hash_func p block ∧ q < p := by
  rw [(hf_removeDuplicate_cut w _).1] at h
  have h2 := (cut_isPrefix w.remove _).subset h
  rw [← hf_addAll_allRemoved w adds] at h2
  exact (hf_remove_iff w.allRemoved (by intro x; simp [World.allRemoved]) block adds p).mp h2

/-- Whatever the outcomes of the removals, the size-first engine attempts to remove only added
files with a smaller added file of the same size and the same digest. -/
theorem sf_remove_sound (w : World P D) (block : Nat) (adds : List P) (p : P)
    (h : Event.remove p ∈
      ((BayanDataSizeFirstImpl.addAll w ⟨block, []⟩ adds).RemoveDuplicate w).1) :
    p ∈ adds ∧ ∃ q ∈ adds, w.file_size q = w.file_size p ∧
      w.hash_func q block = w.hash_func p block ∧ q < p := by
  rw [(sf_removeDuplicate_cut w _).1] at h
  have h2 := (cut_isPrefix w.remove _).subset h
  rw [← sf_addAll_allRemoved w adds] at h2
  exact (sf_remove_iff w.allRemoved (by intro x; simp [World.allRemoved]) block adds p).mp h2

end HashFirstCut

/-! ## The walker -/

theorem forEach_mem {α P : Type} (body : α → List (Event P) × Bool) (l : List α)
    (e : Event P) (he : e ∈ (forEach body l).1) : ∃ x ∈ l, e ∈ (body x).1 := by
  induction l with
  | nil => simp [forEach] at he
  | cons x xs ih =>
    unfold forEach at he
    rcases hb : body x with ⟨t, ok⟩
    rw [hb] at he
    cases ok with
    | true =>
      simp only at he
      rcases List.mem_append.mp he with h | h
      · exact ⟨x, List.mem_cons_self _ _, by rw [hb]; exact h⟩
      · obtain ⟨y, hy, hey⟩ := ih h
        exact ⟨y, List.mem_cons_of_mem _ hy, hey⟩
    | false =>
      simp only at he
      exact ⟨x, List.mem_cons_self _ _, by rw [hb]; exact he⟩

theorem forEach_all_ok {α P : Type} (body : α → List (Event P) × Bool) (l : List α)
    (h : (forEach body l).2 = true) : ∀ x ∈ l, (body x).2 = true := by
  induction l with
  | nil => intro x hx; exact absurd hx (List.not_mem_nil _)
  | cons x xs ih =>
    unfold forEach at h
    rcases hb : body x with ⟨t, ok⟩
    rw [hb] at h
    cases ok with
    | true =>
      simp only at h
      intro y hy
      rcases List.mem_cons.mp hy with rfl | hy
      · rw [hb]
      · exact ih h y hy
    | false => simp at h

theorem forEach_mem_of_ok {α P : Type} (body : α → List (Event P) × Bool) (l : List α)
    (h : (forEach body l).2 = true) (x : α) (hx : x ∈ l) (e : Event P)
    (he : e ∈ (body x).1) : e ∈ (forEach body l).1 := by
  rw [forEach_of_ok body l (forEach_all_ok body l h), List.mem_flatMap]
  exact ⟨x, hx, he⟩

section Walker

variable {Rx : Type}

theorem processFolder_unfold (lib : RegexLib Rx) (b : Bayan Rx) (fs : FileSystem)
    (dir : FsPath) (cd : Nat) (h : cd ≤ b.m_depth)
    (hd : fs.directory_iterator_throws dir = false) :
    b.ProcessFolder lib fs dir cd =
      (Event.enumerate dir :: (forEach (b.entryBody lib fs cd) (fs.directory_iterator dir)).1,
        (forEach (b.entryBody lib fs cd) (fs.directory_iterator dir)).2) := by
  rw [Bayan.ProcessFolder]
  simp only [h, if_true, hd, Bool.false_eq_true, if_false]
  have hbody : (fun entry =>
      if fs.status_throws entry = true then ([], false)
      else if fs.is_directory entry = true then
        if entry ∉ b.m_excluded then b.ProcessFolder lib fs entry (cd + 1) else ([], true)
      else b.fileBranch lib fs entry) = b.entryBody lib fs cd := by
    funext entry
    rfl
  rw [hbody]

theorem processFolder_throws (lib : RegexLib Rx) (b : Bayan Rx) (fs : FileSystem)
    (dir : FsPath) (cd : Nat) (h : cd ≤ b.m_depth)
    (hd : fs.directory_iterator_throws dir = true) :
    b.ProcessFolder lib fs dir cd = ([Event.enumerate dir], false) := by
  rw [Bayan.ProcessFolder]
  simp only [h, if_true, hd]

theorem processFolder_too_deep (lib : RegexLib Rx) (b : Bayan Rx) (fs : FileSystem)
    (dir : FsPath) (cd : Nat) (h : ¬ cd ≤ b.m_depth) :
    b.ProcessFolder lib fs dir cd = ([], true) := by
  rw [Bayan.ProcessFolder]
  simp only [h, if_false]

/-- What the branch for files hands to `Add`. -/
theorem fileBranch_add (lib : RegexLib Rx) (b : Bayan Rx) (fs : FileSystem) (entry f : FsPath)
    (hd : fs.is_directory entry = false) :
    Event.add f ∈ (b.fileBranch lib fs entry).1 ↔
      f = entry ∧ b.isCandidate lib fs entry = true ∧ fs.file_size_throws entry = false := by
  unfold Bayan.fileBranch Bayan.isCandidate
  rw [hd]
  cases hreg : fs.is_regular_file entry <;>
    cases hthrow : fs.file_size_throws entry <;>
    cases hmask : b.m_haveMask <;>
    by_cases hsz : b.m_minsize ≤ fs.file_size entry <;>
    cases hm : b.m_masks <;> simp [hsz]
  rename_i rx
  cases lib.regex_search entry.filename rx <;> simp

theorem fileBranch_events (lib : RegexLib Rx) (b : Bayan Rx) (fs : FileSystem)
    (entry : FsPath) (e : Event FsPath) (he : e ∈ (b.fileBranch lib fs entry).1) :
    e = Event.add entry := by
  unfold Bayan.fileBranch at he
  cases hreg : fs.is_regular_file entry <;>
    cases hthrow : fs.file_size_throws entry <;>
    cases hmask : b.m_haveMask <;>
    by_cases hsz : b.m_minsize ≤ fs.file_size entry <;>
    cases hm : b.m_masks <;> simp [hreg, hthrow, hmask, hsz, hm] at he <;> try exact he
  rename_i rx
  cases hs : lib.regex_search entry.filename rx <;> simp [hs] at he
  exact he

theorem fileBranch_ok (lib : RegexLib Rx) (b : Bayan Rx) (fs : FileSystem) (entry : FsPath)
    (h : (b.fileBranch lib fs entry).2 = true) (hreg : fs.is_regular_file entry = true) :
    fs.file_size_throws entry = false := by
  unfold Bayan.fileBranch at h
  cases hthrow : fs.file_size_throws entry
  · rfl
  · simp [hreg, hthrow] at h

theorem isCandidate_regular (lib : RegexLib Rx) (b : Bayan Rx) (fs : FileSystem)
    (f : FsPath) (h : b.isCandidate lib fs f = true) :
    fs.is_directory f = false ∧ fs.is_regular_file f = true := by
  unfold Bayan.isCandidate at h
  cases hd : fs.is_directory f <;> cases hr : fs.is_regular_file f <;> simp [hd, hr] at h
  exact ⟨rfl, rfl⟩

/-- The files a walk hands to `Add` are candidates among the entries of the directories that
lie `k` levels below its start, for the `k` the depth allows. -/
theorem add_mem_processFolder (lib : RegexLib Rx) (b : Bayan Rx) (fs : FileSystem)
    (f : FsPath) (n : Nat) : ∀ (dir : FsPath) (cd : Nat), b.m_depth + 1 - cd = n →
    Event.add f ∈ (b.ProcessFolder lib fs dir cd).1 →
      ∃ k, cd + k ≤ b.m_depth ∧ ∃ d ∈ levelDirs fs b.m_excluded dir k,
        f ∈ fs.directory_iterator d ∧ b.isCandidate lib fs f = true := by
  induction n with
  | zero =>
    intro dir cd hn he
    have h : ¬ cd ≤ b.m_depth := by omega
    rw [processFolder_too_deep lib b fs dir cd h] at he
    exact absurd he (List.not_mem_nil _)
  | succ n ih =>
    intro dir cd hn he
    have h : cd ≤ b.m_depth := by omega
    cases hthrow : fs.directory_iterator_throws dir with
    | true =>
      rw [processFolder_throws lib b fs dir cd h hthrow] at he
      simp at he
    | false =>
      rw [processFolder_unfold lib b fs dir cd h hthrow] at he
      simp only [List.mem_cons, reduceCtorEq, false_or] at he
      obtain ⟨entry, hentry, he⟩ := forEach_mem _ _ _ he
      unfold Bayan.entryBody at he
      cases hst : fs.status_throws entry with
      | true => simp [hst] at he
      | false =>
        simp only [hst, Bool.false_eq_true, if_false] at he
        cases hd : fs.is_directory entry with
        | true =>
          simp only [hd, if_true] at he
          by_cases hex : entry ∈ b.m_excluded
          · simp [hex] at he
          · simp only [hex, not_false_eq_true, if_true] at he
            obtain ⟨k, hk, d, hdk, hf⟩ := ih entry (cd + 1) (by omega) he
            refine ⟨k + 1, by omega, d, ?_, hf⟩
            simp only [levelDirs, List.mem_flatMap, List.mem_filter, Bool.and_eq_true,
              decide_eq_true_eq]
            exact ⟨entry, ⟨hentry, hd, hex⟩, hdk⟩
        | false =>
          simp only [hd, Bool.false_eq_true, if_false] at he
          obtain ⟨hfe, hc, _⟩ := (fileBranch_add lib b fs entry f hd).mp he
          subst hfe
          exact ⟨0, by omega, dir, by simp [levelDirs], hentry, hc⟩

/-- A walk that runs to its end hands to `Add` every candidate among the entries of the
directories that lie `k` levels below its start, for the `k` the depth allows. -/
theorem add_mem_processFolder_of_ok (lib : RegexLib Rx) (b : Bayan Rx) (fs : FileSystem)
    (f : FsPath) (n : Nat) : ∀ (dir : FsPath) (cd : Nat), b.m_depth + 1 - cd = n →
    (b.ProcessFolder lib fs dir cd).2 = true →
    ∀ k, cd + k ≤ b.m_depth → ∀ d ∈ levelDirs fs b.m_excluded dir k,
      f ∈ fs.directory_iterator d → b.isCandidate lib fs f = true →
      Event.add f ∈ (b.ProcessFolder lib fs dir cd).1 := by
  induction n with
  | zero =>
    intro dir cd hn _ k hk
    omega
  | succ n ih =>
    intro dir cd hn hok k hk d hdk hf hc
    have h : cd ≤ b.m_depth := by omega
    cases hthrow : fs.directory_iterator_throws dir with
    | true =>
      rw [processFolder_throws lib b fs dir cd h hthrow] at hok
      simp at hok
    | false =>
      rw [processFolder_unfold lib b fs dir cd h hthrow] at hok ⊢
      simp only at hok
      have hall := forEach_all_ok _ _ hok
      apply List.mem_cons_of_mem
      cases k with
      | zero =>
        simp only [levelDirs, List.mem_singleton] at hdk
        subst hdk
        apply forEach_mem_of_ok _ _ hok f hf
        have hbody := hall f hf
        obtain ⟨hnd, hreg⟩ := isCandidate_regular lib b fs f hc
        unfold Bayan.entryBody at hbody ⊢
        cases hst : fs.status_throws f with
        | true => simp [hst] at hbody
        | false =>
          simp only [hst, Bool.false_eq_true, if_false, hnd] at hbody ⊢
          exact (fileBranch_add lib b fs f f hnd).mpr
            ⟨rfl, hc, fileBranch_ok lib b fs f hbody hreg⟩
      | succ k =>
        simp only [levelDirs, List.mem_flatMap, List.mem_filter, Bool.and_eq_true,
          decide_eq_true_eq] at hdk
        obtain ⟨entry, ⟨hentry, hd, hex⟩, hdk⟩ := hdk
        apply forEach_mem_of_ok _ _ hok entry hentry
        have hbody := hall entry hentry
        unfold Bayan.entryBody at hbody ⊢
        cases hst : fs.status_throws entry with
        | true => simp [hst] at hbody
        | false =>
          simp only [hst, Bool.false_eq_true, if_false, hd, if_true, hex,
            not_false_eq_true] at hbody ⊢
          exact ih entry (cd + 1) (by omega) hbody k (by omega) d hdk hf hc

/-- The directories a walk enumerates lie `k` levels below its start, for the `k` the depth
allows. -/
theorem enumerate_mem_processFolder (lib : RegexLib Rx) (b : Bayan Rx) (fs : FileSystem)
    (e : FsPath) (n : Nat) : ∀ (dir : FsPath) (cd : Nat), b.m_depth + 1 - cd = n →
    Event.enumerate e ∈ (b.ProcessFolder lib fs dir cd).1 →
      ∃ k, cd + k ≤ b.m_depth ∧ e ∈ levelDirs fs b.m_excluded dir k := by
  induction n with
  | zero =>
    intro dir cd hn he
    have h : ¬ cd ≤ b.m_depth := by omega
    rw [processFolder_too_deep lib b fs dir cd h] at he
    exact absurd he (List.not_mem_nil _)
  | succ n ih =>
    intro dir cd hn he
    have h : cd ≤ b.m_depth := by omega
    cases hthrow : fs.directory_iterator_throws dir with
    | true =>
      rw [processFolder_throws lib b fs dir cd h hthrow] at he
      simp only [List.mem_singleton, Event.enumerate.injEq] at he
      exact ⟨0, by omega, by simp [levelDirs, he]⟩
    | false =>
      rw [processFolder_unfold lib b fs dir cd h hthrow] at he
      simp only [List.mem_cons, Event.enumerate.injEq] at he
      rcases he with he | he
      · exact ⟨0, by omega, by simp [levelDirs, he]⟩
      · obtain ⟨entry, hentry, he⟩ := forEach_mem _ _ _ he
        unfold Bayan.entryBody at he
        cases hst : fs.status_throws entry with
        | true => simp [hst] at he
        | false =>
          simp only [hst, Bool.false_eq_true, if_false] at he
          cases hd : fs.is_directory entry with
          | true =>
            simp only [hd, if_true] at he
            by_cases hex : entry ∈ b.m_excluded
            · simp [hex] at he
            · simp only [hex, not_false_eq_true, if_true] at he
              obtain ⟨k, hk, hdk⟩ := ih entry (cd + 1) (by omega) he
              refine ⟨k + 1, by omega, ?_⟩
              simp only [levelDirs, List.mem_flatMap, List.mem_filter, Bool.and_eq_true,
                decide_eq_true_eq]
              exact ⟨entry, ⟨hentry, hd, hex⟩, hdk⟩
          | false =>
            simp only [hd, Bool.false_eq_true, if_false] at he
            have := fileBranch_events lib b fs entry _ he
            simp at this

/-- A walk that is allowed to enter its start directory enumerates it, whatever follows. -/
theorem enumerate_start (lib : RegexLib Rx) (b : Bayan Rx) (fs : FileSystem)
    (dir : FsPath) (cd : Nat) (h : cd ≤ b.m_depth) :
    Event.enumerate dir ∈ (b.ProcessFolder lib fs dir cd).1 := by
  cases hthrow : fs.directory_iterator_throws dir with
  | true => rw [processFolder_throws lib b fs dir cd h hthrow]; simp
  | false => rw [processFolder_unfold lib b fs dir cd h hthrow]; simp

/-- The walk emits nothing but `enumerate` and `add` events. -/
theorem processFolder_events (lib : RegexLib Rx) (b : Bayan Rx) (fs : FileSystem)
    (n : Nat) : ∀ (dir : FsPath) (cd : Nat), b.m_depth + 1 - cd = n →
    ∀ e ∈ (b.ProcessFolder lib fs dir cd).1,
      (∃ d, e = Event.enumerate d) ∨ ∃ f, e = Event.add f := by
  induction n with
  | zero =>
    intro dir cd hn
    have h : ¬ cd ≤ b.m_depth := by omega
    rw [processFolder_too_deep lib b fs dir cd h]
    intro e he
    exact absurd he (List.not_mem_nil _)
  | succ n ih =>
    intro dir cd hn e he
    have h : cd ≤ b.m_depth := by omega
    cases hthrow : fs.directory_iterator_throws dir with
    | true =>
      rw [processFolder_throws lib b fs dir cd h hthrow, List.mem_singleton] at he
      exact Or.inl ⟨dir, he⟩
    | false =>
      rw [processFolder_unfold lib b fs dir cd h hthrow] at he
      rcases List.mem_cons.mp he with he | he
      · exact Or.inl ⟨dir, he⟩
      · obtain ⟨entry, _, he⟩ := forEach_mem _ _ _ he
        unfold Bayan.entryBody at he
        cases hst : fs.status_throws entry with
        | true => simp [hst] at he
        | false =>
          simp only [hst, Bool.false_eq_true, if_false] at he
          cases hd : fs.is_directory entry with
          | true =>
            simp only [hd, if_true] at he
            by_cases hex : entry ∈ b.m_excluded
            · simp [hex] at he
            · simp only [hex, not_false_eq_true, if_true] at he
              exact ih entry (cd + 1) (by omega) e he
          | false =>
            simp only [hd, Bool.false_eq_true, if_false] at he
            exact Or.inr ⟨entry, fileBranch_events lib b fs entry e he⟩

/-- A directory the walk may enter below its start is not in the exclusion list. -/
theorem levelDirs_not_excluded (fs : FileSystem) (excluded : List FsPath) (k : Nat) :
    ∀ (dir d : FsPath), d ∈ levelDirs fs excluded dir (k + 1) →
      d ∉ excluded ∧ fs.is_directory d = true := by
  induction k with
  | zero =>
    intro dir d hd
    simp only [levelDirs, List.mem_flatMap, List.mem_filter, Bool.and_eq_true,
      decide_eq_true_eq, List.mem_singleton] at hd
    obtain ⟨entry, ⟨_, h1, h2⟩, rfl⟩ := hd
    exact ⟨h2, h1⟩
  | succ k ih =>
    intro dir d hd
    rw [levelDirs] at hd
    simp only [List.mem_flatMap, List.mem_filter] at hd
    obtain ⟨entry, _, hd⟩ := hd
    exact ih entry d hd

end Walker


/-! ## The constructor -/

theorem collectDirs_true (fs : FileSystem) (l : List FsPath) :
    (collectDirs fs l).2 = true ↔
      ∀ d ∈ l, fs.path_exists d = true ∧ fs.is_directory d = true := by
  induction l with
  | nil => simp [collectDirs]
  | cons d rest ih =>
    unfold collectDirs
    by_cases h : (fs.path_exists d && fs.is_directory d) = true
    · simp only [h, if_true, ih, List.mem_cons, forall_eq_or_imp]
      rw [Bool.and_eq_true] at h
      simp [h]
    · simp only [h, Bool.false_eq_true, if_false, List.mem_cons, forall_eq_or_imp, false_iff,
        not_and]
      intro h1
      rw [Bool.and_eq_true] at h
      exact absurd h1 h

theorem collectDirs_eq_of_true (fs : FileSystem) (l : List FsPath)
    (h : (collectDirs fs l).2 = true) : (collectDirs fs l).1 = l := by
  induction l with
  | nil => simp [collectDirs]
  | cons d rest ih =>
    unfold collectDirs at h ⊢
    by_cases hd : (fs.path_exists d && fs.is_directory d) = true
    · simp only [hd, if_true] at h ⊢
      rw [ih h]
    · simp [hd] at h

section Ctor

variable {Rx : Type}

/-- A constructed object that is valid: the checks of the constructor all passed and the
fields hold the arguments. -/
theorem new_valid (lib : RegexLib Rx) (fs : FileSystem) (dirs excluded : List FsPath)
    (depth minsize : Nat) (masks : List String) (block : Nat) (hashalg : String) (b : Bayan Rx)
    (h : Bayan.new lib fs dirs excluded depth minsize masks block hashalg = some b)
    (hv : b.m_isValid = true) :
    (∃ kind, hashKindOf hashalg = some kind ∧ b.m_filedata = some kind) ∧ block ≠ 0 ∧
      (∀ d ∈ dirs, fs.path_exists d = true ∧ fs.is_directory d = true) ∧
      (∀ d ∈ excluded, fs.path_exists d = true ∧ fs.is_directory d = true) ∧
      b.m_dirs = dirs ∧ b.m_excluded = excluded ∧ b.m_depth = depth ∧ b.m_minsize = minsize ∧
      b.m_block = block ∧ b.m_haveMask = !masks.isEmpty ∧
      (masks.isEmpty = false →
        ∃ rx, lib.compile (joinMasks true "" masks) = some rx ∧ b.m_masks = some rx) := by
  unfold Bayan.new at h
  cases hk : hashKindOf hashalg with
  | none =>
    simp only [hk, Option.some.injEq] at h
    subst h
    simp at hv
  | some kind =>
    simp only [hk] at h
    by_cases hb : block = 0
    · simp only [hb, if_true, Option.some.injEq] at h
      subst h
      simp at hv
    · simp only [hb, if_false] at h
      cases hm : masks.isEmpty with
      | true =>
        simp only [hm, if_true] at h
        rcases hd : collectDirs fs dirs with ⟨ds, okd⟩
        rcases he : collectDirs fs excluded with ⟨es, oke⟩
        rw [hd] at h
        cases okd with
        | false =>
          simp only [Option.some.injEq] at h
          subst h
          simp at hv
        | true =>
          simp only [he, Option.some.injEq] at h
          subst h
          simp only at hv
          subst hv
          have h1 := collectDirs_eq_of_true fs dirs (by rw [hd])
          have h2 := collectDirs_eq_of_true fs excluded (by rw [he])
          rw [hd] at h1
          rw [he] at h2
          simp only at h1 h2
          subst h1 h2
          refine ⟨⟨kind, rfl, rfl⟩, hb, ?_, ?_, rfl, rfl, rfl, rfl, rfl, rfl, ?_⟩
          · exact (collectDirs_true fs _).mp (by rw [hd])
          · exact (collectDirs_true fs _).mp (by rw [he])
          · intro hc; exact absurd hc (by simp)
      | false =>
        simp only [hm, Bool.false_eq_true, if_false] at h
        cases hc : lib.compile (joinMasks true "" masks) with
        | none => simp [hc] at h
        | some rx =>
          simp only [hc] at h
          rcases hd : collectDirs fs dirs with ⟨ds, okd⟩
          rcases he : collectDirs fs excluded with ⟨es, oke⟩
          rw [hd] at h
          cases okd with
          | false =>
            simp only [Option.some.injEq] at h
            subst h
            simp at hv
          | true =>
            simp only [he, Option.some.injEq] at h
            subst h
            simp only at hv
            subst hv
            have h1 := collectDirs_eq_of_true fs dirs (by rw [hd])
            have h2 := collectDirs_eq_of_true fs excluded (by rw [he])
            rw [hd] at h1
            rw [he] at h2
            simp only at h1 h2
            subst h1 h2
            refine ⟨⟨kind, rfl, rfl⟩, hb, ?_, ?_, rfl, rfl, rfl, rfl, rfl, rfl, ?_⟩
            · exact (collectDirs_true fs _).mp (by rw [hd])
            · exact (collectDirs_true fs _).mp (by rw [he])
            · intro _; exact ⟨rx, rfl, rfl⟩

/-- The constructor makes an object unless `std::regex` throws; the regular expression is
compiled only after the hash algorithm and the block size passed their checks. -/
theorem new_isSome (lib : RegexLib Rx) (fs : FileSystem) (dirs excluded : List FsPath)
    (depth minsize : Nat) (masks : List String) (block : Nat) (hashalg : String)
    (h : hashKindOf hashalg = none ∨ block = 0 ∨ masks = [] ∨
      (lib.compile (joinMasks true "" masks)).isSome = true) :
    (Bayan.new lib fs dirs excluded depth minsize masks block hashalg).isSome = true := by
  unfold Bayan.new
  cases hk : hashKindOf hashalg with
  | none => simp
  | some kind =>
    simp only
    by_cases hb : block = 0
    · simp [hb]
    · simp only [hb, if_false]
      rcases h with h | h | h | h
      · rw [hk] at h; simp at h
      · exact absurd h hb
      · subst h
        simp only [List.isEmpty_nil, if_true]
        rcases collectDirs fs dirs with ⟨ds, okd⟩
        rcases collectDirs fs excluded with ⟨es, oke⟩
        cases okd <;> simp
      · cases hm : masks.isEmpty with
        | true =>
          simp only [if_true]
          rcases collectDirs fs dirs with ⟨ds, okd⟩
          rcases collectDirs fs excluded with ⟨es, oke⟩
          cases okd <;> simp
        | false =>
          simp only [Bool.false_eq_true, if_false]
          cases hc : lib.compile (joinMasks true "" masks) with
          | none => rw [hc] at h; simp at h
          | some rx =>
            simp only
            rcases collectDirs fs dirs with ⟨ds, okd⟩
            rcases collectDirs fs excluded with ⟨es, oke⟩
            cases okd <;> simp

/-- A bad argument makes the constructed object invalid. -/
theorem new_invalid (lib : RegexLib Rx) (fs : FileSystem) (dirs excluded : List FsPath)
    (depth minsize : Nat) (masks : List String) (block : Nat) (hashalg : String) (b : Bayan Rx)
    (h : Bayan.new lib fs dirs excluded depth minsize masks block hashalg = some b)
    (hbad : hashKindOf hashalg = none ∨ block = 0 ∨
      (∃ d ∈ dirs, ¬ (fs.path_exists d = true ∧ fs.is_directory d = true)) ∨
      (∃ d ∈ excluded, ¬ (fs.path_exists d = true ∧ fs.is_directory d = true))) :
    b.m_isValid = false := by
  cases hv : b.m_isValid with
  | false => rfl
  | true =>
    exfalso
    obtain ⟨⟨kind, hk, _⟩, hb, hd, he, _⟩ :=
      new_valid lib fs dirs excluded depth minsize masks block hashalg b h hv
    rcases hbad with h1 | h1 | ⟨d, hd1, hd2⟩ | ⟨d, hd1, hd2⟩
    · rw [hk] at h1; simp at h1
    · exact hb h1
    · exact hd2 (hd d hd1)
    · exact hd2 (he d hd1)

theorem hashKindOf_eq_none (hashalg : String) :
    hashKindOf hashalg = none ↔ hashalg ≠ "crc32" ∧ hashalg ≠ "md5" ∧ hashalg ≠ "sha1" := by
  unfold hashKindOf
  by_cases h1 : hashalg = "crc32"
  · simp [h1]
  · by_cases h2 : hashalg = "md5"
    · simp [h2]
    · by_cases h3 : hashalg = "sha1"
      · simp [h3]
      · simp [h1, h2, h3]

end Ctor


/-! ## A run -/

theorem paired_events {P : Type} (t : List (Event P)) (ht : Paired t) :
    ∀ e ∈ t, (∃ p, e = Event.hash p) ∨ (∃ p, e = Event.remove p) ∨
      ∃ p, e = Event.logRemoved p := by
  induction ht with
  | nil => intro e he; exact absurd he (List.not_mem_nil _)
  | pair p t _ ih =>
    intro e he
    rcases List.mem_cons.mp he with he | he
    · exact Or.inr (Or.inl ⟨p, he⟩)
    · rcases List.mem_cons.mp he with he | he
      · exact Or.inr (Or.inr ⟨p, he⟩)
      · exact ih e he
  | hash p t _ ih =>
    intro e he
    rcases List.mem_cons.mp he with he | he
    · exact Or.inl ⟨p, he⟩
    · exact ih e he

/-- The engine emits nothing but `hash`, `remove` and `logRemoved` events. -/
theorem sf_events {P D : Type} [LinearOrder P] [LinearOrder D] (w : World P D)
    (self : BayanDataSizeFirstImpl P) :
    ∀ e ∈ (self.RemoveDuplicate w).1, (∃ p, e = Event.hash p) ∨ (∃ p, e = Event.remove p) ∨
      ∃ p, e = Event.logRemoved p := by
  intro e he
  rw [(sf_removeDuplicate_cut w self).1] at he
  exact paired_events _ (sf_trace_paired w self) e
    ((cut_isPrefix w.remove _).subset he)

section RunProps

variable {Rx : Type}

/-- The walk emits nothing but `printDir`, `enumerate` and `add` events. -/
theorem walk_events (lib : RegexLib Rx) (b : Bayan Rx) (fs : FileSystem) :
    ∀ e ∈ (b.walk lib fs).1, (∃ d, e = Event.printDir d) ∨ (∃ d, e = Event.enumerate d) ∨
      ∃ f, e = Event.add f := by
  intro e he
  unfold Bayan.walk at he
  obtain ⟨dir, _, he⟩ := forEach_mem _ _ _ he
  rcases List.mem_cons.mp he with he | he
  · exact Or.inl ⟨dir, he⟩
  · exact Or.inr (processFolder_events lib b fs _ dir 0 rfl e he)

/-- The files the walk of the scan roots hands to `Add`. -/
theorem add_mem_walk (lib : RegexLib Rx) (b : Bayan Rx) (fs : FileSystem) (f : FsPath)
    (he : Event.add f ∈ (b.walk lib fs).1) :
    ∃ root ∈ b.m_dirs, ∃ k, k ≤ b.m_depth ∧ ∃ d ∈ levelDirs fs b.m_excluded root k,
      f ∈ fs.directory_iterator d ∧ b.isCandidate lib fs f = true := by
  unfold Bayan.walk at he
  obtain ⟨root, hroot, he⟩ := forEach_mem _ _ _ he
  simp only [List.mem_cons, reduceCtorEq, false_or] at he
  obtain ⟨k, hk, h⟩ := add_mem_processFolder lib b fs f _ root 0 rfl he
  exact ⟨root, hroot, k, by omega, h⟩

/-- The walk of the scan roots, when it runs to its end, hands to `Add` every candidate within
the depth of a root. -/
theorem add_mem_walk_of_ok (lib : RegexLib Rx) (b : Bayan Rx) (fs : FileSystem) (f : FsPath)
    (hok : (b.walk lib fs).2 = true) (root : FsPath) (hroot : root ∈ b.m_dirs) (k : Nat)
    (hk : k ≤ b.m_depth) (d : FsPath) (hd : d ∈ levelDirs fs b.m_excluded root k)
    (hf : f ∈ fs.directory_iterator d) (hc : b.isCandidate lib fs f = true) :
    Event.add f ∈ (b.walk lib fs).1 := by
  unfold Bayan.walk at hok ⊢
  apply forEach_mem_of_ok _ _ hok root hroot
  apply List.mem_cons_of_mem
  have hroot_ok := forEach_all_ok _ _ hok root hroot
  exact add_mem_processFolder_of_ok lib b fs f _ root 0 rfl hroot_ok k (by omega) d hd hf hc

theorem enumerate_mem_walk (lib : RegexLib Rx) (b : Bayan Rx) (fs : FileSystem) (e : FsPath)
    (he : Event.enumerate e ∈ (b.walk lib fs).1) :
    ∃ root ∈ b.m_dirs, ∃ k, k ≤ b.m_depth ∧ e ∈ levelDirs fs b.m_excluded root k := by
  unfold Bayan.walk at he
  obtain ⟨root, hroot, he⟩ := forEach_mem _ _ _ he
  simp only [List.mem_cons, reduceCtorEq, false_or] at he
  obtain ⟨k, hk, h⟩ := enumerate_mem_processFolder lib b fs e _ root 0 rfl he
  exact ⟨root, hroot, k, by omega, h⟩

/-- The walk of the scan roots, when it runs to its end, enumerates every root. -/
theorem enumerate_root_of_ok (lib : RegexLib Rx) (b : Bayan Rx) (fs : FileSystem)
    (hok : (b.walk lib fs).2 = true) (root : FsPath) (hroot : root ∈ b.m_dirs) :
    Event.enumerate root ∈ (b.walk lib fs).1 := by
  unfold Bayan.walk at hok ⊢
  apply forEach_mem_of_ok _ _ hok root hroot
  apply List.mem_cons_of_mem
  exact enumerate_start lib b fs root 0 (Nat.zero_le _)

/-- The events of a run are those of the walk and, after them, those of the engine, which is
run only when the walk ran to its end. -/
theorem run_events {D : Type} [LinearOrder D] (lib : RegexLib Rx) (b : Bayan Rx)
    (fs : FileSystem) (env : Env D) (e : Event FsPath) (he : e ∈ (b.Run lib fs env).1) :
    e = Event.logInvalid ∧ b.m_isValid = false ∨
      b.m_isValid = true ∧ (e ∈ (b.walk lib fs).1 ∨
        (b.walk lib fs).2 = true ∧ ∃ kind, b.m_filedata = some kind ∧
          e ∈ ((BayanDataSizeFirstImpl.addAll (env.world fs kind) ⟨b.m_block, []⟩
            (addCalls (b.walk lib fs).1)).RemoveDuplicate (env.world fs kind)).1) := by
  unfold Bayan.Run at he
  cases hv : b.m_isValid with
  | false =>
    simp only [hv, Bool.false_eq_true, if_false, List.mem_singleton] at he
    exact Or.inl ⟨he, rfl⟩
  | true =>
    simp only [hv, if_true] at he
    right
    refine ⟨rfl, ?_⟩
    cases hw : (b.walk lib fs).2 with
    | false =>
      simp only [hw, Bool.false_eq_true, if_false] at he
      exact Or.inl he
    | true =>
      simp only [hw, if_true] at he
      cases hf : b.m_filedata with
      | none =>
        simp only [hf] at he
        exact Or.inl he
      | some kind =>
        simp only [hf] at he
        rcases List.mem_append.mp he with he | he
        · exact Or.inl he
        · exact Or.inr ⟨rfl, kind, rfl, he⟩

/-- The events of the walk are events of the run of a valid object. -/
theorem walk_subset_run {D : Type} [LinearOrder D] (lib : RegexLib Rx) (b : Bayan Rx)
    (fs : FileSystem) (env : Env D) (hv : b.m_isValid = true) (e : Event FsPath)
    (he : e ∈ (b.walk lib fs).1) : e ∈ (b.Run lib fs env).1 := by
  unfold Bayan.Run
  simp only [hv, if_true]
  cases hw : (b.walk lib fs).2 with
  | false => simpa using he
  | true =>
    simp only [if_true]
    cases hf : b.m_filedata with
    | none => exact he
    | some kind => exact List.mem_append_left _ he

theorem add_mem_run {D : Type} [LinearOrder D] (lib : RegexLib Rx) (b : Bayan Rx)
    (fs : FileSystem) (env : Env D) (f : FsPath) :
    Event.add f ∈ (b.Run lib fs env).1 ↔
      b.m_isValid = true ∧ Event.add f ∈ (b.walk lib fs).1 := by
  constructor
  · intro he
    rcases run_events lib b fs env _ he with ⟨h, _⟩ | ⟨hv, h | ⟨_, kind, _, h⟩⟩
    · simp at h
    · exact ⟨hv, h⟩
    · rcases sf_events _ _ _ h with ⟨p, hp⟩ | ⟨p, hp⟩ | ⟨p, hp⟩ <;> simp at hp
  · rintro ⟨hv, he⟩
    exact walk_subset_run lib b fs env hv _ he

theorem enumerate_mem_run {D : Type} [LinearOrder D] (lib : RegexLib Rx) (b : Bayan Rx)
    (fs : FileSystem) (env : Env D) (d : FsPath) :
    Event.enumerate d ∈ (b.Run lib fs env).1 ↔
      b.m_isValid = true ∧ Event.enumerate d ∈ (b.walk lib fs).1 := by
  constructor
  · intro he
    rcases run_events lib b fs env _ he with ⟨h, _⟩ | ⟨hv, h | ⟨_, kind, _, h⟩⟩
    · simp at h
    · exact ⟨hv, h⟩
    · rcases sf_events _ _ _ h with ⟨p, hp⟩ | ⟨p, hp⟩ | ⟨p, hp⟩ <;> simp at hp
  · rintro ⟨hv, he⟩
    exact walk_subset_run lib b fs env hv _ he

/-- The `fs::remove` calls of a run are those of its engine, made when the walk ran to its
end. -/
theorem remove_mem_run {D : Type} [LinearOrder D] (lib : RegexLib Rx) (b : Bayan Rx)
    (fs : FileSystem) (env : Env D) (p : FsPath) :
    Event.remove p ∈ (b.Run lib fs env).1 ↔
      b.m_isValid = true ∧ (b.walk lib fs).2 = true ∧ ∃ kind, b.m_filedata = some kind ∧
        Event.remove p ∈ ((BayanDataSizeFirstImpl.addAll (env.world fs kind) ⟨b.m_block, []⟩
          (addCalls (b.walk lib fs).1)).RemoveDuplicate (env.world fs kind)).1 := by
  constructor
  · intro he
    rcases run_events lib b fs env _ he with ⟨h, _⟩ | ⟨hv, h | ⟨hw, kind, hf, h⟩⟩
    · simp at h
    · rcases walk_events lib b fs _ h with ⟨d, hd⟩ | ⟨d, hd⟩ | ⟨d, hd⟩ <;> simp at hd
    · exact ⟨hv, hw, kind, hf, h⟩
  · rintro ⟨hv, hw, kind, hf, h⟩
    unfold Bayan.Run
    simp only [hv, if_true, hw, hf]
    exact List.mem_append_right _ h

end RunProps


/-! ## The file system after the removals -/

theorem removeFiles_is_directory (fs : FileSystem) (R : List FsPath) (p : FsPath) :
    (fs.removeFiles R).is_directory p = fs.is_directory p := by
  induction R generalizing fs with
  | nil => rfl
  | cons r rest ih => rw [FileSystem.removeFiles, ih]; rfl

theorem removeFiles_file_size (fs : FileSystem) (R : List FsPath) :
    (fs.removeFiles R).file_size = fs.file_size := by
  induction R generalizing fs with
  | nil => rfl
  | cons r rest ih => rw [FileSystem.removeFiles, ih]; rfl

theorem removeFiles_is_regular_file (fs : FileSystem) (R : List FsPath) (p : FsPath)
    (hp : p ∉ R) : (fs.removeFiles R).is_regular_file p = fs.is_regular_file p := by
  induction R generalizing fs with
  | nil => rfl
  | cons r rest ih =>
    rw [List.mem_cons, not_or] at hp
    rw [FileSystem.removeFiles, ih _ hp.2]
    simp [FileSystem.removeFile, hp.1]

theorem removeFiles_path_exists (fs : FileSystem) (R : List FsPath) (p : FsPath)
    (hp : p ∉ R) : (fs.removeFiles R).path_exists p = fs.path_exists p := by
  induction R generalizing fs with
  | nil => rfl
  | cons r rest ih =>
    rw [List.mem_cons, not_or] at hp
    rw [FileSystem.removeFiles, ih _ hp.2]
    simp [FileSystem.removeFile, hp.1]

theorem removeFiles_directory_iterator (fs : FileSystem) (R : List FsPath) (d e : FsPath) :
    e ∈ (fs.removeFiles R).directory_iterator d ↔ e ∈ fs.directory_iterator d ∧ e ∉ R := by
  induction R generalizing fs with
  | nil => simp [FileSystem.removeFiles]
  | cons r rest ih =>
    rw [FileSystem.removeFiles, ih]
    simp only [FileSystem.removeFile, List.mem_filter, decide_eq_true_eq, List.mem_cons, not_or]
    tauto

theorem removeFiles_subdirs (fs : FileSystem) (R : List FsPath)
    (hR : ∀ r ∈ R, fs.is_directory r = false) (excluded : List FsPath) (d : FsPath) :
    ((fs.removeFiles R).directory_iterator d).filter (fun entry =>
        (fs.removeFiles R).is_directory entry && decide (entry ∉ excluded)) =
      (fs.directory_iterator d).filter (fun entry =>
        fs.is_directory entry && decide (entry ∉ excluded)) := by
  induction R generalizing fs with
  | nil => rfl
  | cons r rest ih =>
    rw [FileSystem.removeFiles]
    rw [ih (fs.removeFile r) (fun x hx => hR x (List.mem_cons_of_mem _ hx))]
    simp only [FileSystem.removeFile, List.filter_filter]
    apply List.filter_congr
    intro e _
    by_cases he : e = r
    · subst he
      simp [hR e (List.mem_cons_self _ _)]
    · simp [he]

theorem levelDirs_removeFiles (fs : FileSystem) (R : List FsPath)
    (hR : ∀ r ∈ R, fs.is_directory r = false) (excluded : List FsPath) (k : Nat) :
    ∀ dir, levelDirs (fs.removeFiles R) excluded dir k = levelDirs fs excluded dir k := by
  induction k with
  | zero => intro dir; rfl
  | succ k ih =>
    intro dir
    simp only [levelDirs]
    rw [removeFiles_subdirs fs R hR excluded dir]
    apply List.flatMap_congr
    intro e _
    exact ih e

section SecondRun

variable {Rx : Type}

theorem isCandidate_removeFiles (lib : RegexLib Rx) (b : Bayan Rx) (fs : FileSystem)
    (R : List FsPath) (f : FsPath) (hf : f ∉ R) :
    b.isCandidate lib (fs.removeFiles R) f = b.isCandidate lib fs f := by
  unfold Bayan.isCandidate
  rw [removeFiles_is_directory, removeFiles_is_regular_file fs R f hf, removeFiles_file_size]

/-- The files the walk hands to `Add` once the files `R`, none of them a directory, are
removed were handed to `Add` by the walk before, if that ran to its end, and are not in
`R`. -/
theorem add_mem_walk_removeFiles (lib : RegexLib Rx) (b : Bayan Rx) (fs : FileSystem)
    (R : List FsPath) (hR : ∀ r ∈ R, fs.is_directory r = false)
    (hok : (b.walk lib fs).2 = true) (f : FsPath)
    (he : Event.add f ∈ (b.walk lib (fs.removeFiles R)).1) :
    Event.add f ∈ (b.walk lib fs).1 ∧ f ∉ R := by
  obtain ⟨root, hroot, k, hk, d, hd, hf, hc⟩ := add_mem_walk lib b _ f he
  rw [levelDirs_removeFiles fs R hR] at hd
  rw [removeFiles_directory_iterator] at hf
  rw [isCandidate_removeFiles lib b fs R f hf.2] at hc
  exact ⟨add_mem_walk_of_ok lib b fs f hok root hroot k hk d hd hf.1 hc, hf.2⟩

theorem world_removeFiles {D : Type} (env : Env D) (fs : FileSystem) (R : List FsPath)
    (kind : HashKind) : env.world (fs.removeFiles R) kind = env.world fs kind := by
  unfold Env.world
  rw [removeFiles_file_size]

theorem collectDirs_removeFiles (fs : FileSystem) (R : List FsPath)
    (hR : ∀ r ∈ R, fs.is_directory r = false) (l : List FsPath) :
    collectDirs (fs.removeFiles R) l = collectDirs fs l := by
  induction l with
  | nil => rfl
  | cons d rest ih =>
    unfold collectDirs
    rw [ih, removeFiles_is_directory]
    by_cases hd : d ∈ R
    · simp [hR d hd]
    · rw [removeFiles_path_exists fs R d hd]

theorem new_removeFiles (lib : RegexLib Rx) (fs : FileSystem) (R : List FsPath)
    (hR : ∀ r ∈ R, fs.is_directory r = false) (dirs excluded : List FsPath)
    (depth minsize : Nat) (masks : List String) (block : Nat) (hashalg : String) :
    Bayan.new lib (fs.removeFiles R) dirs excluded depth minsize masks block hashalg =
      Bayan.new lib fs dirs excluded depth minsize masks block hashalg := by
  unfold Bayan.new
  simp only [collectDirs_removeFiles fs R hR]

/-- The files a run removes are files the walk handed to `Add`: none is a directory. -/
theorem removed_not_directory {D : Type} [LinearOrder D] (lib : RegexLib Rx) (b : Bayan Rx)
    (fs : FileSystem) (env : Env D) :
    ∀ r ∈ removeCalls (b.Run lib fs env).1, fs.is_directory r = false := by
  intro r hr
  rw [mem_removeCalls, remove_mem_run] at hr
  obtain ⟨_, _, kind, _, h⟩ := hr
  have hadd := (sf_remove_sound _ _ _ _ h).1
  rw [mem_addCalls] at hadd
  obtain ⟨_, _, _, _, _, _, _, hc⟩ := add_mem_walk lib b fs r hadd
  exact (isCandidate_regular lib b fs r hc).1

/-- When the run after a run gets to its engine, the walk of the first run ran to its end. -/
theorem first_walk_ok {D : Type} [LinearOrder D] (lib : RegexLib Rx) (b : Bayan Rx)
    (fs : FileSystem) (env : Env D)
    (hw : (b.walk lib (fs.removeFiles (removeCalls (b.Run lib fs env).1))).2 = true) :
    (b.walk lib fs).2 = true := by
  cases hR : removeCalls (b.Run lib fs env).1 with
  | nil =>
    rw [hR] at hw
    exact hw
  | cons r rest =>
    have hr : r ∈ removeCalls (b.Run lib fs env).1 := by rw [hR]; exact List.mem_cons_self _ _
    rw [mem_removeCalls, remove_mem_run] at hr
    exact hr.2.1

/-- The run after a run in which no removal throws: no file is removed and no two different
files share a group. -/
theorem second_run {D : Type} [LinearOrder D] (lib : RegexLib Rx) (b : Bayan Rx)
    (fs : FileSystem) (env : Env D) (hok : ∀ p, env.remove p ≠ RemoveOutcome.error) :
    (∀ p, Event.remove p ∉
        (b.Run lib (fs.removeFiles (removeCalls (b.Run lib fs env).1)) env).1) ∧
      ∀ g ∈ b.groups lib (fs.removeFiles (removeCalls (b.Run lib fs env).1)) env,
        ∀ p ∈ g, ∀ q ∈ g, p = q := by
  have hR := removed_not_directory lib b fs env
  have key : ∀ kind, b.m_isValid = true → b.m_filedata = some kind →
      (b.walk lib (fs.removeFiles (removeCalls (b.Run lib fs env).1))).2 = true →
      ∀ p q, p ∈ addCalls (b.walk lib (fs.removeFiles (removeCalls (b.Run lib fs env).1))).1 →
        q ∈ addCalls (b.walk lib (fs.removeFiles (removeCalls (b.Run lib fs env).1))).1 →
        (env.world fs kind).file_size q = (env.world fs kind).file_size p →
        (env.world fs kind).hash_func q b.m_block = (env.world fs kind).hash_func p b.m_block →
        q < p → False := by
    intro kind hv hf hw p q hp hq hs hd hlt
    have hw1 := first_walk_ok lib b fs env hw
    rw [mem_addCalls] at hp hq
    obtain ⟨hp1, hp2⟩ := add_mem_walk_removeFiles lib b fs _ hR hw1 p hp
    obtain ⟨hq1, _⟩ := add_mem_walk_removeFiles lib b fs _ hR hw1 q hq
    apply hp2
    rw [mem_removeCalls, remove_mem_run]
    refine ⟨hv, hw1, kind, hf, ?_⟩
    rw [sf_remove_iff _ hok]
    exact ⟨(mem_addCalls _ _).mpr hp1, q, (mem_addCalls _ _).mpr hq1, hs, hd, hlt⟩
  constructor
  · intro p hp
    rw [remove_mem_run] at hp
    obtain ⟨hv, hw, kind, hf, h⟩ := hp
    rw [world_removeFiles, sf_remove_iff _ hok] at h
    obtain ⟨hp1, q, hq, hqs, hqd, hqp⟩ := h
    exact key kind hv hf hw p q hp1 hq hqs hqd hqp
  · intro g hg p hp q hq
    unfold Bayan.groups at hg
    cases hv : b.m_isValid with
    | false => simp [hv] at hg
    | true =>
      cases hw : (b.walk lib (fs.removeFiles (removeCalls (b.Run lib fs env).1))).2 with
      | false => simp [hv, hw] at hg
      | true =>
        cases hf : b.m_filedata with
        | none => simp [hv, hw, hf] at hg
        | some kind =>
          simp only [hv, hw, hf, if_true] at hg
          by_contra hne
          rw [world_removeFiles] at hg
          obtain ⟨hpa, hqa, hs, hd⟩ :=
            (sf_group_iff _ b.m_block _ p q hne).mp ⟨g, hg, hp, hq⟩
          rcases lt_or_gt_of_ne hne with hlt | hgt
          · exact key kind hv hf hw q p hqa hpa hs hd hlt
          · exact key kind hv hf hw p q hpa hqa hs.symm hd.symm hgt

end SecondRun


/-! ## The mask expression in the fragment -/

theorem addBottom_ne_nil (pre : List Re) (stack : List Frame) (h : stack ≠ []) :
    addBottom pre stack ≠ [] := by
  match stack, h with
  | [f], _ => simp [addBottom]
  | f :: g :: rest, _ => simp [addBottom]

theorem sf_group_nodup {P D : Type} [LinearOrder P] [LinearOrder D] (w : World P D)
    (block : Nat) (adds : List P) :
    ∀ g ∈ (BayanDataSizeFirstImpl.addAll w ⟨block, []⟩ adds).groups w, g.Nodup := by
  obtain ⟨⟨_, hbuckets, _⟩, hblock⟩ := sizeTable_fresh w block adds
  intro g hg
  unfold BayanDataSizeFirstImpl.groups at hg
  rw [hblock, List.mem_flatMap] at hg
  obtain ⟨⟨s, b⟩, hin, hg⟩ := hg
  by_cases hlen : b.length > 1
  · simp only [hlen, if_true, List.mem_map] at hg
    obtain ⟨⟨d, v⟩, hdv, rfl⟩ := hg
    obtain ⟨hv, _⟩ := (hashTable_bucket w block b).2.1 d v hdv
    simp only
    rw [hv]
    exact (nodup_of_ascending b (hbuckets s b hin).1).filter _
  · simp [hlen] at hg

theorem length_le_one_of_all_eq {α : Type} (g : List α) (hn : g.Nodup)
    (h : ∀ p ∈ g, ∀ q ∈ g, p = q) : g.length ≤ 1 := by
  match g, hn, h with
  | [], _, _ => simp
  | [_], _, _ => simp
  | a :: b :: rest, hn, h =>
    exfalso
    rw [List.nodup_cons] at hn
    apply hn.1
    rw [h a (by simp) b (by simp)]
    simp

theorem treeFs_level (k : Nat) (d : FsPath) (hd : d ∈ levelDirs treeFs [] dirR k)
    (hf : fileRXYB ∈ treeFs.directory_iterator d) : k = 2 := by
  have hdy : d = dirRXY := by
    simp only [treeFs] at hf
    by_cases h1 : d = dirR
    · rw [h1] at hf; exact absurd hf (by decide)
    · by_cases h2 : d = dirRX
      · rw [h2] at hf; exact absurd hf (by decide)
      · by_cases h3 : d = dirRXY
        · exact h3
        · simp [h1, h2, h3] at hf
  subst hdy
  match k with
  | 0 => revert hd; decide
  | 1 => revert hd; decide
  | 2 => rfl
  | n + 3 =>
    exfalso
    have h1 : (treeFs.directory_iterator dirR).filter
        (fun entry => treeFs.is_directory entry && decide (entry ∉ ([] : List FsPath))) = [dirRX] := by
      decide
    have h2 : (treeFs.directory_iterator dirRX).filter
        (fun entry => treeFs.is_directory entry && decide (entry ∉ ([] : List FsPath))) = [dirRXY] := by
      decide
    have h3 : (treeFs.directory_iterator dirRXY).filter
        (fun entry => treeFs.is_directory entry && decide (entry ∉ ([] : List FsPath))) = [] := by
      decide
    rw [levelDirs, h1] at hd
    simp only [List.flatMap_cons, List.flatMap_nil, List.append_nil] at hd
    rw [levelDirs, h2] at hd
    simp only [List.flatMap_cons, List.flatMap_nil, List.append_nil] at hd
    rw [levelDirs, h3] at hd
    simp at hd

theorem treeFs_root_level (k : Nat) (d : FsPath) (hd : d ∈ levelDirs treeFs [] dirR k)
    (hf : fileRB ∈ treeFs.directory_iterator d) : k = 0 := by
  have hdr : d = dirR := by
    simp only [treeFs] at hf
    by_cases h1 : d = dirR
    · exact h1
    · by_cases h2 : d = dirRX
      · rw [h2] at hf; exact absurd hf (by decide)
      · by_cases h3 : d = dirRXY
        · rw [h3] at hf; exact absurd hf (by decide)
        · simp [h1, h2, h3] at hf
  subst hdr
  match k with
  | 0 => rfl
  | 1 => exact absurd hd (by decide)
  | 2 => exact absurd hd (by decide)
  | n + 3 =>
    exfalso
    have h1 : (treeFs.directory_iterator dirR).filter
        (fun entry => treeFs.is_directory entry && decide (entry ∉ ([] : List FsPath))) = [dirRX] := by
      decide
    have h2 : (treeFs.directory_iterator dirRX).filter
        (fun entry => treeFs.is_directory entry && decide (entry ∉ ([] : List FsPath))) = [dirRXY] := by
      decide
    have h3 : (treeFs.directory_iterator dirRXY).filter
        (fun entry => treeFs.is_directory entry && decide (entry ∉ ([] : List FsPath))) = [] := by
      decide
    rw [levelDirs, h1] at hd
    simp only [List.flatMap_cons, List.flatMap_nil, List.append_nil] at hd
    rw [levelDirs, h2] at hd
    simp only [List.flatMap_cons, List.flatMap_nil, List.append_nil] at hd
    rw [levelDirs, h3] at hd
    simp at hd

/-- A hash function with digests of 32 bits, such as `crc32`, gives the same digest to some
two different files of five bytes, which the size-first engine then puts in one group. -/
theorem collision_grouped (hash : List Nat → Nat → Fin (2 ^ 32)) (block : Nat) :
    ∃ content : Bool → List Nat, content false ≠ content true ∧
      ∃ g ∈ (BayanDataSizeFirstImpl.addAll
          (contentWorld content hash (fun _ => RemoveOutcome.removed)) ⟨block, []⟩
          [false, true]).groups (contentWorld content hash (fun _ => RemoveOutcome.removed)),
        false ∈ g ∧ true ∈ g := by
  have hcard : Fintype.card (Fin (2 ^ 32)) < Fintype.card (Fin 5 → Fin 256) := by
    rw [Fintype.card_fun, Fintype.card_fin, Fintype.card_fin, Fintype.card_fin]
    norm_num
  obtain ⟨x, y, hxy, hh⟩ := Fintype.exists_ne_map_eq_of_card_lt
    (fun v : Fin 5 → Fin 256 => hash (List.ofFn (fun i => (v i).val)) block) hcard
  have hne : List.ofFn (fun i => (x i).val) ≠ List.ofFn (fun i => (y i).val) := by
    intro h
    apply hxy
    funext i
    exact Fin.val_injective (congrFun (List.ofFn_injective h) i)
  refine ⟨fun b => if b then List.ofFn (fun i => (y i).val) else List.ofFn (fun i => (x i).val),
    by simpa using hne, ?_⟩
  apply (sf_group_iff _ block [false, true] false true (by decide)).mpr
  refine ⟨by simp, by simp, ?_, ?_⟩
  · simp [contentWorld]
  · simpa [contentWorld] using hh

theorem run_group_nodup {Rx D : Type} [LinearOrder D] (lib : RegexLib Rx) (b : Bayan Rx)
    (fs : FileSystem) (env : Env D) : ∀ g ∈ b.groups lib fs env, g.Nodup := by
  intro g hg
  unfold Bayan.groups at hg
  cases hv : b.m_isValid with
  | false => simp [hv] at hg
  | true =>
    cases hw : (b.walk lib fs).2 with
    | false => simp [hv, hw] at hg
    | true =>
      cases hf : b.m_filedata with
      | none => simp [hv, hw, hf] at hg
      | some kind =>
        simp only [hv, hw, hf, if_true] at hg
        exact sf_group_nodup _ _ _ g hg

/-- The walk of the tree `r` throws nowhere: it runs to its end. -/
theorem treeFs_walk_ok (b : Bayan Re) (n : Nat) : ∀ (dir : FsPath) (cd : Nat),
    b.m_depth + 1 - cd = n → (b.ProcessFolder Re.lib treeFs dir cd).2 = true := by
  induction n with
  | zero =>
    intro dir cd hn
    rw [processFolder_too_deep Re.lib b treeFs dir cd (by omega)]
  | succ n ih =>
    intro dir cd hn
    rw [processFolder_unfold Re.lib b treeFs dir cd (by omega) rfl]
    simp only
    rw [forEach_of_ok]
    intro entry _
    unfold Bayan.entryBody
    have hst : treeFs.status_throws entry = false := rfl
    simp only [hst, Bool.false_eq_true, if_false]
    cases hd : treeFs.is_directory entry with
    | true =>
      simp only [if_true]
      by_cases hex : entry ∈ b.m_excluded
      · simp [hex]
      · simp only [hex, not_false_eq_true, if_true]
        exact ih entry (cd + 1) (by omega)
    | false =>
      simp only [Bool.false_eq_true, if_false]
      unfold Bayan.fileBranch
      have hfs : treeFs.file_size_throws entry = false := rfl
      cases hreg : treeFs.is_regular_file entry <;>
        cases hmask : b.m_haveMask <;>
        by_cases hsz : b.m_minsize ≤ treeFs.file_size entry <;>
        cases hm : b.m_masks <;> simp [hfs, hsz]
      rename_i rx
      cases Re.lib.regex_search entry.filename rx <;> simp

/-- The walk of the scan roots over the tree `r` runs to its end. -/
theorem treeFs_roots_ok (b : Bayan Re) : (b.walk Re.lib treeFs).2 = true := by
  unfold Bayan.walk
  rw [forEach_of_ok]
  intro dir _
  exact treeFs_walk_ok b _ dir 0 rfl

/-- The walk that starts with the unreadable directory `locked` ends there. -/
theorem locked_walk (b : Bayan Re) (rest : List FsPath) (h : b.m_dirs = dirLocked :: rest) :
    b.walk Re.lib lockedFs = ([Event.printDir dirLocked, Event.enumerate dirLocked], false) := by
  unfold Bayan.walk
  rw [h, forEach, processFolder_throws Re.lib b lockedFs dirLocked 0 (Nat.zero_le _) (by decide)]

/-- C1, as stated, fails. Two files of equal size and digest, `photos/img.jpg` and
`photos-backup/img.jpg`: as a string the second path is the smaller one (`'-'` sorts before
`'/'`), so the claim has `photos/img.jpg` removed; the engine orders its set by the comparison
of `fs::path`, element by element, where `photos` comes before `photos-backup`, and removes
`photos-backup/img.jpg`. -/
theorem C1_counterexample :
    ¬ (∀ p, p ∈ removeCalls ((BayanDataSizeFirstImpl.addAll equalWorld ⟨4096, []⟩
          [photo, photoBackup]).RemoveDuplicate equalWorld).1 ↔
        p ∈ [photo, photoBackup] ∧ ∃ q ∈ [photo, photoBackup],
          equalWorld.file_size q = equalWorld.file_size p ∧
          equalWorld.hash_func q 4096 = equalWorld.hash_func p 4096 ∧
          FsPath.stringLt q p = true) := by
  intro h
  have h1 := (h photo).mpr ⟨by decide, photoBackup, by decide, rfl, rfl, by decide⟩
  revert h1
  decide

/-- C1, amended. With sizes and digests fixed and every removal succeeding, after any sequence
of `Add` calls the size-first engine removes exactly the added paths `p` for which some added
path `q` of the same size and the same digest precedes `p` in the order of `fs::path`, which
compares the paths element by element (the sequences `key` of the characters of their
elements), not as strings. -/
theorem C1_size_first_removes {D : Type} [LinearOrder D] (w : World FsPath D)
    (hok : ∀ p, w.remove p = RemoveOutcome.removed) (block : Nat) (adds : List FsPath)
    (p : FsPath) :
    p ∈ removeCalls ((BayanDataSizeFirstImpl.addAll w ⟨block, []⟩ adds).RemoveDuplicate w).1 ↔
      p ∈ adds ∧ ∃ q ∈ adds, w.file_size q = w.file_size p ∧
        w.hash_func q block = w.hash_func p block ∧ q.key < p.key := by
  rw [mem_removeCalls]
  exact sf_remove_iff w (fun p => by rw [hok p]; decide) block adds p

/-- C1, amended, on the two photographs: the copy under `photos-backup` is the one removed. -/
theorem C1_size_first_removes_witness :
    (∀ p, equalWorld.remove p = RemoveOutcome.removed) ∧
      photoBackup ∈ removeCalls ((BayanDataSizeFirstImpl.addAll equalWorld ⟨4096, []⟩
        [photo, photoBackup]).RemoveDuplicate equalWorld).1 :=
  ⟨fun _ => rfl,
    (C1_size_first_removes equalWorld (fun _ => rfl) 4096 [photo, photoBackup] photoBackup).mpr
      ⟨by decide, photo, by decide, rfl, rfl, by decide⟩⟩

/-- C2, as stated, fails. The files `a` with the bytes `1 2` and `b` with the bytes `2 1` have
the same size and, under the checksum `sumHash`, the same digest: the engine puts them in one
group and removes `b`, though their contents differ. -/
theorem C2_counterexample :
    (∃ g ∈ (BayanDataSizeFirstImpl.addAll swappedWorld ⟨4096, []⟩
        [fileA, fileB]).groups swappedWorld, fileA ∈ g ∧ fileB ∈ g) ∧
      swappedContent fileA ≠ swappedContent fileB ∧
      fileB ∈ removeCalls ((BayanDataSizeFirstImpl.addAll swappedWorld ⟨4096, []⟩
        [fileA, fileB]).RemoveDuplicate swappedWorld).1 := by
  decide

/-- C2, amended. Two distinct added files are put in the same group if and only if they have
the same size and the hash function gives them the same digest; files with the same bytes are
therefore always grouped, and files with different bytes are grouped exactly when they have
the same length and their digests collide. When no removal throws, one of two grouped files is
removed. -/
theorem C2_grouping {P D : Type} [LinearOrder P] [LinearOrder D] (content : P → List Nat)
    (hash : List Nat → Nat → D) (remove : P → RemoveOutcome) (block : Nat) (adds : List P)
    (p q : P) (hne : p ≠ q) :
    ((∃ g ∈ (BayanDataSizeFirstImpl.addAll (contentWorld content hash remove) ⟨block, []⟩
          adds).groups (contentWorld content hash remove), p ∈ g ∧ q ∈ g) ↔
        p ∈ adds ∧ q ∈ adds ∧ (content p).length = (content q).length ∧
          hash (content p) block = hash (content q) block) ∧
      (p ∈ adds → q ∈ adds → content p = content q →
        ∃ g ∈ (BayanDataSizeFirstImpl.addAll (contentWorld content hash remove) ⟨block, []⟩
          adds).groups (contentWorld content hash remove), p ∈ g ∧ q ∈ g) ∧
      ((∀ x, remove x ≠ RemoveOutcome.error) →
        (∃ g ∈ (BayanDataSizeFirstImpl.addAll (contentWorld content hash remove) ⟨block, []⟩
          adds).groups (contentWorld content hash remove), p ∈ g ∧ q ∈ g) →
        p ∈ removeCalls ((BayanDataSizeFirstImpl.addAll (contentWorld content hash remove)
            ⟨block, []⟩ adds).RemoveDuplicate (contentWorld content hash remove)).1 ∨
          q ∈ removeCalls ((BayanDataSizeFirstImpl.addAll (contentWorld content hash remove)
            ⟨block, []⟩ adds).RemoveDuplicate (contentWorld content hash remove)).1) := by
  have h := sf_group_iff (contentWorld content hash remove) block adds p q hne
  refine ⟨h, ?_, ?_⟩
  · intro hp hq hc
    refine h.mpr ⟨hp, hq, ?_, ?_⟩
    · simp only [contentWorld]; rw [hc]
    · simp only [contentWorld]; rw [hc]
  · intro hok hg
    obtain ⟨hp, hq, hs, hd⟩ := h.mp hg
    rw [mem_removeCalls, mem_removeCalls,
      sf_remove_iff (contentWorld content hash remove) hok,
      sf_remove_iff (contentWorld content hash remove) hok]
    rcases lt_or_gt_of_ne hne with hlt | hgt
    · exact Or.inr ⟨hq, p, hp, hs, hd, hlt⟩
    · exact Or.inl ⟨hp, q, hq, hs.symm, hd.symm, hgt⟩

/-- C2, amended, on the files `a` and `b` with swapped bytes. -/
theorem C2_grouping_witness :
    fileA ≠ fileB ∧
      ((∃ g ∈ (BayanDataSizeFirstImpl.addAll
            (contentWorld swappedContent sumHash (fun _ => RemoveOutcome.removed)) ⟨4096, []⟩
            [fileA, fileB]).groups
            (contentWorld swappedContent sumHash (fun _ => RemoveOutcome.removed)),
          fileA ∈ g ∧ fileB ∈ g) ↔
        fileA ∈ [fileA, fileB] ∧ fileB ∈ [fileA, fileB] ∧
          (swappedContent fileA).length = (swappedContent fileB).length ∧
          sumHash (swappedContent fileA) 4096 = sumHash (swappedContent fileB) 4096) :=
  ⟨by decide,
    (C2_grouping swappedContent sumHash (fun _ => RemoveOutcome.removed) 4096 [fileA, fileB]
      fileA fileB (by decide)).1⟩

/-- C3, as stated, fails. The directory `r` is both a scan root and an entry of the exclusion
list: the constructor accepts the arguments and `Run` hands the file `r/b`, which lies in `r`,
to `Add`. -/
theorem C3_counterexample :
    ∃ b, Bayan.new Re.lib treeFs [dirR] [dirR] 0 1 [] 4096 "crc32" = some b ∧
      b.m_isValid = true ∧ dirR ∈ b.m_excluded ∧ fileRB ∈ treeFs.directory_iterator dirR ∧
      fileRB ∈ addCalls (b.Run Re.lib treeFs equalEnv).1 := by
  refine ⟨_, rfl, by decide, by decide, by decide, ?_⟩
  rw [mem_addCalls, add_mem_run]
  exact ⟨by decide, add_mem_walk_of_ok Re.lib _ treeFs fileRB (treeFs_roots_ok _) dirR
    (by decide) 0 (by decide) dirR (by decide) (by decide) (by decide)⟩

/-- C3, amended. The exclusion list prunes the directories met during the descent, not the
scan roots. Every file handed to `Add` during `Run` is an entry of a directory reached from a
scan root by at most `m_depth` steps, each into a directory entry that is not in the exclusion
list; every directory enumerated is a scan root or is not in the exclusion list; a directory
reached by one step or more is never in the exclusion list. A scan root is walked also when it
is in the exclusion list: when the object is valid and no exception ends the walk, every scan
root is enumerated and every candidate among its entries is handed to `Add`. -/
theorem C3_exclusion {Rx D : Type} [LinearOrder D] (lib : RegexLib Rx) (b : Bayan Rx)
    (fs : FileSystem) (env : Env D) :
    (∀ f, f ∈ addCalls (b.Run lib fs env).1 →
      ∃ root ∈ b.m_dirs, ∃ k, k ≤ b.m_depth ∧ ∃ d ∈ levelDirs fs b.m_excluded root k,
        f ∈ fs.directory_iterator d) ∧
    (∀ d, d ∈ enumerateCalls (b.Run lib fs env).1 → d ∈ b.m_dirs ∨ d ∉ b.m_excluded) ∧
    (∀ root k d, d ∈ levelDirs fs b.m_excluded root (k + 1) → d ∉ b.m_excluded) ∧
    (b.m_isValid = true → (b.walk lib fs).2 = true → ∀ root ∈ b.m_dirs,
      root ∈ enumerateCalls (b.Run lib fs env).1 ∧
      ∀ f ∈ fs.directory_iterator root, b.isCandidate lib fs f = true →
        f ∈ addCalls (b.Run lib fs env).1) := by
  refine ⟨?_, ?_, ?_, ?_⟩
  · intro f hf
    rw [mem_addCalls, add_mem_run] at hf
    obtain ⟨root, hroot, k, hk, d, hd, hfd, _⟩ := add_mem_walk lib b fs f hf.2
    exact ⟨root, hroot, k, hk, d, hd, hfd⟩
  · intro d hd
    rw [mem_enumerateCalls, enumerate_mem_run] at hd
    obtain ⟨root, hroot, k, _, hdk⟩ := enumerate_mem_walk lib b fs d hd.2
    cases k with
    | zero =>
      simp only [levelDirs, List.mem_singleton] at hdk
      left; rw [hdk]; exact hroot
    | succ k => exact Or.inr (levelDirs_not_excluded fs b.m_excluded k root d hdk).1
  · intro root k d hd
    exact (levelDirs_not_excluded fs b.m_excluded k root d hd).1
  · intro hv hok root hroot
    constructor
    · rw [mem_enumerateCalls, enumerate_mem_run]
      exact ⟨hv, enumerate_root_of_ok lib b fs hok root hroot⟩
    · intro f hf hc
      rw [mem_addCalls, add_mem_run]
      exact ⟨hv, add_mem_walk_of_ok lib b fs f hok root hroot 0 (Nat.zero_le _) root
        (by simp [levelDirs]) hf hc⟩

/-- C3, amended, on the tree `r`, `r/x`, `r/x/y` scanned to depth 2. With `r/x` excluded the
file `r/x/y/b` is not handed to `Add`; with the root `r` itself excluded, `r` is enumerated
all the same. -/
theorem C3_exclusion_witness :
    fileRXYB ∉ addCalls (Bayan.Run Re.lib { deepBayan with m_excluded := [dirRX] } treeFs
        equalEnv).1 ∧
      dirR ∈ enumerateCalls (Bayan.Run Re.lib { deepBayan with m_excluded := [dirR] } treeFs
        equalEnv).1 := by
  constructor
  · intro h
    obtain ⟨root, hroot, k, hk, d, hd, hf⟩ :=
      (C3_exclusion Re.lib { deepBayan with m_excluded := [dirRX] } treeFs equalEnv).1
        fileRXYB h
    have hroot' : root = dirR := by simpa [deepBayan, shallowBayan] using hroot
    subst hroot'
    have hk' : k ≤ 2 := hk
    match k, hk' with
    | 0, _ =>
      simp only [levelDirs, List.mem_singleton] at hd
      subst hd
      exact absurd hf (by decide)
    | 1, _ =>
      have e : levelDirs treeFs [dirRX] dirR 1 = [] := by decide
      change d ∈ levelDirs treeFs [dirRX] dirR 1 at hd
      rw [e] at hd
      exact absurd hd (List.not_mem_nil _)
    | 2, _ =>
      have e : levelDirs treeFs [dirRX] dirR 2 = [] := by decide
      change d ∈ levelDirs treeFs [dirRX] dirR 2 at hd
      rw [e] at hd
      exact absurd hd (List.not_mem_nil _)
  · exact ((C3_exclusion Re.lib { deepBayan with m_excluded := [dirR] } treeFs
      equalEnv).2.2.2 rfl (treeFs_roots_ok _) dirR (by decide)).1


/-- C5, as stated, fails, in two ways. With the scan roots `r` and `r/x/y` and depth 0, the
file `r/x/y/b`, which lies two levels below the scan root `r`, is handed to `Add`: it is an
entry of the other root. And with the scan roots `locked` and `r` and depth 0, the file `r/b`,
an entry of the scan root `r`, is not handed to `Add`: `fs::directory_iterator` throws on the
unreadable `locked` and the exception ends the run. -/
theorem C5_counterexample :
    (∃ b, Bayan.new Re.lib treeFs [dirR, dirRXY] [] 0 1 [] 4096 "crc32" = some b ∧
      b.m_isValid = true ∧ dirR ∈ b.m_dirs ∧ dirRXY ∈ levelDirs treeFs b.m_excluded dirR 2 ∧
      fileRXYB ∈ treeFs.directory_iterator dirRXY ∧
      b.isCandidate Re.lib treeFs fileRXYB = true ∧ ¬ 2 ≤ b.m_depth ∧
      fileRXYB ∈ addCalls (b.Run Re.lib treeFs equalEnv).1) ∧
    (∃ b, Bayan.new Re.lib lockedFs [dirLocked, dirR] [] 0 1 [] 4096 "crc32" = some b ∧
      b.m_isValid = true ∧ dirR ∈ b.m_dirs ∧ dirR ∈ levelDirs lockedFs b.m_excluded dirR 0 ∧
      fileRB ∈ lockedFs.directory_iterator dirR ∧
      b.isCandidate Re.lib lockedFs fileRB = true ∧ 0 ≤ b.m_depth ∧
      fileRB ∉ addCalls (b.Run Re.lib lockedFs equalEnv).1) := by
  constructor
  · refine ⟨_, rfl, by decide, by decide, by decide, by decide, by decide, by decide, ?_⟩
    rw [mem_addCalls, add_mem_run]
    exact ⟨by decide, add_mem_walk_of_ok Re.lib _ treeFs fileRXYB (treeFs_roots_ok _) dirRXY
      (by decide) 0 (by decide) dirRXY (by decide) (by decide) (by decide)⟩
  · refine ⟨_, rfl, by decide, by decide, by decide, by decide, by decide, by decide, ?_⟩
    rw [mem_addCalls, add_mem_run, locked_walk _ [dirR] rfl]
    intro h
    exact absurd h.2 (by decide)

/-- C5, amended. A file is handed to `Add` during `Run` only if it passes the candidate filter
and lies, for some scan root, `k` directory levels below that root with `k` at most the depth
limit and no excluded directory on the way; and when the object is valid and no exception of
the file system ends the walk, every such file is handed to `Add`. With depth 0 only direct
entries of the scan roots are handed to `Add`. -/
theorem C5_depth_limit {Rx D : Type} [LinearOrder D] (lib : RegexLib Rx) (b : Bayan Rx)
    (fs : FileSystem) (env : Env D) :
    (∀ f, f ∈ addCalls (b.Run lib fs env).1 →
      ∃ root ∈ b.m_dirs, ∃ k, k ≤ b.m_depth ∧ ∃ d ∈ levelDirs fs b.m_excluded root k,
        f ∈ fs.directory_iterator d ∧ b.isCandidate lib fs f = true) ∧
    (b.m_isValid = true → (b.walk lib fs).2 = true → ∀ root ∈ b.m_dirs, ∀ k, k ≤ b.m_depth →
      ∀ d ∈ levelDirs fs b.m_excluded root k, ∀ f ∈ fs.directory_iterator d,
      b.isCandidate lib fs f = true → f ∈ addCalls (b.Run lib fs env).1) ∧
    (b.m_depth = 0 → ∀ f, f ∈ addCalls (b.Run lib fs env).1 →
      ∃ root ∈ b.m_dirs, f ∈ fs.directory_iterator root) := by
  have hsound : ∀ f, f ∈ addCalls (b.Run lib fs env).1 →
      ∃ root ∈ b.m_dirs, ∃ k, k ≤ b.m_depth ∧ ∃ d ∈ levelDirs fs b.m_excluded root k,
        f ∈ fs.directory_iterator d ∧ b.isCandidate lib fs f = true := by
    intro f hf
    rw [mem_addCalls, add_mem_run] at hf
    exact add_mem_walk lib b fs f hf.2
  refine ⟨hsound, ?_, ?_⟩
  · intro hv hok root hroot k hk d hd f hf hc
    rw [mem_addCalls, add_mem_run]
    exact ⟨hv, add_mem_walk_of_ok lib b fs f hok root hroot k hk d hd hf hc⟩
  · intro h0 f hf
    obtain ⟨root, hroot, k, hk, d, hd, hfd, _⟩ := hsound f hf
    have hk0 : k = 0 := by omega
    subst hk0
    simp only [levelDirs, List.mem_singleton] at hd
    rw [hd] at hfd
    exact ⟨root, hroot, hfd⟩

/-- C5, amended, on the tree `r`, `r/x`, `r/x/y` with the one scan root `r`: the file
`r/x/y/b`, two levels below the root, is ignored with depth 0 and handed to `Add` with depth
2, and with depth 0 the entry `r/b` of the root is handed to `Add`. -/
theorem C5_depth_limit_witness :
    fileRXYB ∉ addCalls (shallowBayan.Run Re.lib treeFs equalEnv).1 ∧
      fileRXYB ∈ addCalls (deepBayan.Run Re.lib treeFs equalEnv).1 ∧
      fileRB ∈ addCalls (shallowBayan.Run Re.lib treeFs equalEnv).1 := by
  refine ⟨?_, ?_, ?_⟩
  · intro h
    obtain ⟨root, hroot, hf⟩ :=
      (C5_depth_limit Re.lib shallowBayan treeFs equalEnv).2.2 rfl fileRXYB h
    have hroot' : root = dirR := by simpa [shallowBayan] using hroot
    rw [hroot'] at hf
    exact absurd hf (by decide)
  · exact (C5_depth_limit Re.lib deepBayan treeFs equalEnv).2.1 rfl (treeFs_roots_ok _) dirR
      (by decide) 2 (by decide) dirRXY (by decide) fileRXYB (by decide) (by decide)
  · exact (C5_depth_limit Re.lib shallowBayan treeFs equalEnv).2.1 rfl (treeFs_roots_ok _) dirR
      (by decide) 0 (by decide) dirR (by decide) fileRB (by decide) (by decide)


/-- C6. When the hash algorithm is none of `crc32`, `md5`, `sha1`, or the block size is 0, or
a path of `dirs` or of `excluded` does not exist or is not a directory, every object the
constructor makes is invalid and its `Run` only prints the complaint: it enumerates no
directory, calls `Add` for no file and removes no file. The constructor makes an object
unless `std::regex` throws on the mask text, which it is handed only after the hash algorithm
and the block size passed their checks. -/
theorem C6_invalid_configuration {Rx D : Type} [LinearOrder D] (lib : RegexLib Rx)
    (fs : FileSystem) (dirs excluded : List FsPath) (depth minsize : Nat) (masks : List String)
    (block : Nat) (hashalg : String) (env : Env D)
    (hbad : (hashalg ≠ "crc32" ∧ hashalg ≠ "md5" ∧ hashalg ≠ "sha1") ∨ block = 0 ∨
      (∃ d ∈ dirs, ¬ (fs.path_exists d = true ∧ fs.is_directory d = true)) ∨
      (∃ d ∈ excluded, ¬ (fs.path_exists d = true ∧ fs.is_directory d = true))) :
    (∀ b, Bayan.new lib fs dirs excluded depth minsize masks block hashalg = some b →
      b.m_isValid = false ∧ b.Run lib fs env = ([Event.logInvalid], true) ∧
      enumerateCalls (b.Run lib fs env).1 = [] ∧ addCalls (b.Run lib fs env).1 = [] ∧
      removeCalls (b.Run lib fs env).1 = []) ∧
    (((hashalg ≠ "crc32" ∧ hashalg ≠ "md5" ∧ hashalg ≠ "sha1") ∨ block = 0 ∨ masks = [] ∨
        (lib.compile (joinMasks true "" masks)).isSome = true) →
      (Bayan.new lib fs dirs excluded depth minsize masks block hashalg).isSome = true) := by
  constructor
  · intro b hb
    have hinv : b.m_isValid = false := by
      apply new_invalid lib fs dirs excluded depth minsize masks block hashalg b hb
      rcases hbad with h | h | h | h
      · exact Or.inl ((hashKindOf_eq_none hashalg).mpr h)
      · exact Or.inr (Or.inl h)
      · exact Or.inr (Or.inr (Or.inl h))
      · exact Or.inr (Or.inr (Or.inr h))
    have hrun : b.Run lib fs env = ([Event.logInvalid], true) := by
      unfold Bayan.Run
      simp [hinv]
    refine ⟨hinv, hrun, ?_, ?_, ?_⟩ <;> rw [hrun] <;> rfl
  · intro h
    apply new_isSome
    rcases h with h | h | h | h
    · exact Or.inl ((hashKindOf_eq_none hashalg).mpr h)
    · exact Or.inr (Or.inl h)
    · exact Or.inr (Or.inr (Or.inl h))
    · exact Or.inr (Or.inr (Or.inr h))

/-- C6 on the tree `r` with the block size 0: the object is made, it is invalid and its `Run`
touches nothing. -/
theorem C6_invalid_configuration_witness :
    ∃ b, Bayan.new Re.lib treeFs [dirR] [] 0 1 [] 0 "crc32" = some b ∧
      b.m_isValid = false ∧ b.Run Re.lib treeFs equalEnv = ([Event.logInvalid], true) := by
  have h := C6_invalid_configuration Re.lib treeFs [dirR] [] 0 1 [] 0 "crc32" equalEnv
    (Or.inr (Or.inl rfl))
  obtain ⟨b, hb⟩ := Option.isSome_iff_exists.mp (h.2 (Or.inr (Or.inl rfl)))
  exact ⟨b, hb, (h.1 b hb).1, (h.1 b hb).2.1⟩

/-- C7, as stated, fails. Three files `a`, `b`, `c` of equal size and digest. When the removal
of `b` throws, `RemoveDuplicate` ends there: `c` is never attempted and the method does not
run to its end. When `b` has vanished and `fs::remove` returns `false`, `b` is logged as
removed. -/
theorem C7_counterexample :
    (fileC ∉ removeCalls ((BayanDataSizeFirstImpl.addAll deniedWorld ⟨4096, []⟩
          [fileA, fileB, fileC]).RemoveDuplicate deniedWorld).1 ∧
        ((BayanDataSizeFirstImpl.addAll deniedWorld ⟨4096, []⟩
          [fileA, fileB, fileC]).RemoveDuplicate deniedWorld).2 = false) ∧
      (vanishedWorld.remove fileB = RemoveOutcome.absent ∧
        fileB ∈ removedLog ((BayanDataSizeFirstImpl.addAll vanishedWorld ⟨4096, []⟩
          [fileA, fileB, fileC]).RemoveDuplicate vanishedWorld).1) := by
  decide

/-- C7, amended. `RemoveDuplicate` handles no removal failure. It attempts the removals of the
run in which every removal succeeds, in the same order, up to and including the first one
that throws, and none after it; it logs as removed every path attempted before that one, also
a path whose file was gone (`fs::remove` returned `false`); it runs to its end if and only
if no attempted removal throws; and it prints nothing but the lines that log a removal. -/
theorem C7_removal_failure {P D : Type} [LinearOrder P] [LinearOrder D] (w : World P D)
    (self : BayanDataSizeFirstImpl P) :
    removeCalls (self.RemoveDuplicate w).1 =
        (removeCalls (self.RemoveDuplicate w.allRemoved).1).take
          (((removeCalls (self.RemoveDuplicate w.allRemoved).1).takeWhile
            (fun p => decide (w.remove p ≠ RemoveOutcome.error))).length + 1) ∧
      removedLog (self.RemoveDuplicate w).1 =
        (removeCalls (self.RemoveDuplicate w.allRemoved).1).takeWhile
          (fun p => decide (w.remove p ≠ RemoveOutcome.error)) ∧
      ((self.RemoveDuplicate w).2 = true ↔
        ∀ p ∈ removeCalls (self.RemoveDuplicate w.allRemoved).1,
          w.remove p ≠ RemoveOutcome.error) ∧
      (∀ e ∈ (self.RemoveDuplicate w).1,
        (∃ p, e = Event.hash p) ∨ (∃ p, e = Event.remove p) ∨ ∃ p, e = Event.logRemoved p) := by
  obtain ⟨hcut, _⟩ := sf_removeDuplicate_cut w self
  obtain ⟨h1, h2⟩ := cut_paired w.remove _ (sf_trace_paired w self)
  refine ⟨?_, ?_, ?_, sf_events w self⟩
  · rw [hcut]; exact h1
  · rw [hcut]; exact h2
  · rw [hcut]; exact cut_completed_iff w.remove _

/-- C8. For a valid object made by the constructor: after a run in which every removal
succeeds, a second run with the same arguments over the resulting file system makes the same
object, removes no file and forms no group of two or more files; when its walk runs to its
end, the engine it has filled holds no such group. -/
theorem C8_second_run {Rx D : Type} [LinearOrder D] (lib : RegexLib Rx) (fs : FileSystem)
    (dirs excluded : List FsPath) (depth minsize : Nat) (masks : List String) (block : Nat)
    (hashalg : String) (env : Env D) (b : Bayan Rx)
    (hb : Bayan.new lib fs dirs excluded depth minsize masks block hashalg = some b)
    (hv : b.m_isValid = true) (hok : ∀ p, env.remove p = RemoveOutcome.removed) :
    Bayan.new lib (fs.removeFiles (removeCalls (b.Run lib fs env).1)) dirs excluded depth
        minsize masks block hashalg = some b ∧
      removeCalls (b.Run lib (fs.removeFiles (removeCalls (b.Run lib fs env).1)) env).1 = [] ∧
      (∀ g ∈ b.groups lib (fs.removeFiles (removeCalls (b.Run lib fs env).1)) env,
        g.length ≤ 1) ∧
      ((b.walk lib (fs.removeFiles (removeCalls (b.Run lib fs env).1))).2 = true →
        ∀ kind, b.m_filedata = some kind →
        ∀ g ∈ (BayanDataSizeFirstImpl.addAll
            (env.world (fs.removeFiles (removeCalls (b.Run lib fs env).1)) kind)
            ⟨b.m_block, []⟩
            (addCalls
              (b.walk lib (fs.removeFiles (removeCalls (b.Run lib fs env).1))).1)).groups
            (env.world (fs.removeFiles (removeCalls (b.Run lib fs env).1)) kind),
          g.length ≤ 1) := by
  have hok' : ∀ p, env.remove p ≠ RemoveOutcome.error := fun p => by rw [hok p]; decide
  obtain ⟨hnone, hgroups⟩ := second_run lib b fs env hok'
  have hlen : ∀ g ∈ b.groups lib (fs.removeFiles (removeCalls (b.Run lib fs env).1)) env,
      g.length ≤ 1 := fun g hg =>
    length_le_one_of_all_eq g (run_group_nodup lib b _ env g hg) (hgroups g hg)
  refine ⟨?_, ?_, hlen, ?_⟩
  · rw [new_removeFiles lib fs _ (removed_not_directory lib b fs env)]
    exact hb
  · rw [List.eq_nil_iff_forall_not_mem]
    intro p hp
    exact hnone p ((mem_removeCalls _ _).mp hp)
  · intro hw kind hkind g hg
    apply hlen g
    unfold Bayan.groups
    simp only [hv, hw, hkind, if_true]
    exact hg


/-- C8 on the tree `r`, `r/x`, `r/x/y` scanned to depth 2, the files `r/b` and `r/x/y/b` being
equal: the first run removes `r/x/y/b`, and the second run removes nothing. -/
theorem C8_second_run_witness :
    Bayan.new Re.lib treeFs [dirR] [] 2 1 [] 4096 "crc32" = some deepBayan ∧
      deepBayan.m_isValid = true ∧ (∀ p, equalEnv.remove p = RemoveOutcome.removed) ∧
      fileRXYB ∈ removeCalls (deepBayan.Run Re.lib treeFs equalEnv).1 ∧
      removeCalls (deepBayan.Run Re.lib
        (treeFs.removeFiles (removeCalls (deepBayan.Run Re.lib treeFs equalEnv).1))
        equalEnv).1 = [] := by
  refine ⟨rfl, rfl, fun _ => rfl, ?_,
    (C8_second_run Re.lib treeFs [dirR] [] 2 1 [] 4096 "crc32" equalEnv deepBayan rfl rfl
      (fun _ => rfl)).2.1⟩
  rw [mem_removeCalls, remove_mem_run]
  refine ⟨rfl, treeFs_roots_ok _, HashKind.CRC32HASH, rfl, ?_⟩
  rw [sf_remove_iff _ (fun p => by simp [Env.world, equalEnv])]
  refine ⟨?_, fileRB, ?_, rfl, rfl, by decide⟩
  · rw [mem_addCalls]
    exact add_mem_walk_of_ok Re.lib deepBayan treeFs fileRXYB (treeFs_roots_ok _) dirR
      (by decide) 2 (by decide) dirRXY (by decide) (by decide) (by decide)
  · rw [mem_addCalls]
    exact add_mem_walk_of_ok Re.lib deepBayan treeFs fileRB (treeFs_roots_ok _) dirR
      (by decide) 0 (by decide) dirR (by decide) (by decide) (by decide)

/-- C9, as stated, fails. Four added files, `a` and `b` of 3 bytes, `c` and `d` of 5 bytes.
When the removal of `b` throws, `RemoveDuplicate` ends in the bucket of the 3-byte files: the
path `c`, whose size the added path `d` shares, is never hashed. -/
theorem C9_counterexample :
    fileC ∈ [fileA, fileB, fileC, fileD] ∧
      (∃ q ∈ [fileA, fileB, fileC, fileD], q ≠ fileC ∧
        deniedFirst.file_size q = deniedFirst.file_size fileC) ∧
      (hashCalls ((BayanDataSizeFirstImpl.addAll deniedFirst ⟨4096, []⟩
        [fileA, fileB, fileC, fileD]).RemoveDuplicate deniedFirst).1).count fileC = 0 := by
  refine ⟨by decide, ⟨fileD, by decide, by decide, by decide⟩, by decide⟩

/-- C9, amended. `Add` of the size-first engine emits no hash call. After any sequence of
`Add` calls, `RemoveDuplicate` hashes no path more than once and never a path whose size no
other added path shares; when it runs to its end (no removal throws), it hashes exactly once
every added path whose size another added path shares. Whatever the outcomes of the removals,
its hash calls are an initial segment of the hash calls of the run in which every removal
succeeds, and that run hashes exactly once every added path whose size another added path
shares. -/
theorem C9_hash_work {P D : Type} [LinearOrder P] [LinearOrder D] (w : World P D)
    (block : Nat) (adds : List P) (p : P) :
    (∀ (self : BayanDataSizeFirstImpl P) (file : P), hashCalls (self.Add w file).2 = []) ∧
      (hashCalls ((BayanDataSizeFirstImpl.addAll w ⟨block, []⟩ adds).RemoveDuplicate w).1).count p
        ≤ 1 ∧
      ((¬ ∃ q ∈ adds, q ≠ p ∧ w.file_size q = w.file_size p) →
        (hashCalls
          ((BayanDataSizeFirstImpl.addAll w ⟨block, []⟩ adds).RemoveDuplicate w).1).count p = 0) ∧
      (((BayanDataSizeFirstImpl.addAll w ⟨block, []⟩ adds).RemoveDuplicate w).2 = true →
        p ∈ adds → (∃ q ∈ adds, q ≠ p ∧ w.file_size q = w.file_size p) →
        (hashCalls
          ((BayanDataSizeFirstImpl.addAll w ⟨block, []⟩ adds).RemoveDuplicate w).1).count p = 1) ∧
      hashCalls ((BayanDataSizeFirstImpl.addAll w ⟨block, []⟩ adds).RemoveDuplicate w).1 <+:
        hashCalls
          ((BayanDataSizeFirstImpl.addAll w ⟨block, []⟩ adds).RemoveDuplicate w.allRemoved).1 ∧
      (p ∈ adds → (∃ q ∈ adds, q ≠ p ∧ w.file_size q = w.file_size p) →
        (hashCalls ((BayanDataSizeFirstImpl.addAll w ⟨block, []⟩ adds).RemoveDuplicate
          w.allRemoved).1).count p = 1) := by
  have hok : ∀ p, w.allRemoved.remove p ≠ RemoveOutcome.error := by
    intro p; simp [World.allRemoved]
  have hadd : BayanDataSizeFirstImpl.addAll w.allRemoved ⟨block, []⟩ adds =
      BayanDataSizeFirstImpl.addAll w ⟨block, []⟩ adds := by
    have : ∀ (l : List P) (e : BayanDataSizeFirstImpl P),
        BayanDataSizeFirstImpl.addAll w.allRemoved e l = BayanDataSizeFirstImpl.addAll w e l := by
      intro l
      induction l with
      | nil => intro e; rfl
      | cons f rest ih => intro e; simp only [BayanDataSizeFirstImpl.addAll]; exact ih _
    exact this _ _
  have hnodup := sf_hashCalls_nodup w.allRemoved hok block adds
  have hmem := sf_hash_iff w.allRemoved hok block adds p
  rw [hadd] at hnodup hmem
  have hle := sf_hash_count_le w (BayanDataSizeFirstImpl.addAll w ⟨block, []⟩ adds) p
  refine ⟨fun _ _ => rfl, ?_, ?_, ?_, ?_, ?_⟩
  · exact le_trans hle (List.nodup_iff_count_le_one.mp hnodup p)
  · intro hno
    have h0 : (hashCalls ((BayanDataSizeFirstImpl.addAll w ⟨block, []⟩
        adds).RemoveDuplicate w.allRemoved).1).count p = 0 := by
      rw [List.count_eq_zero]
      intro hin
      exact hno (hmem.mp hin).2
    omega
  · intro hdone hp hq
    have hcut := (sf_removeDuplicate_cut w (BayanDataSizeFirstImpl.addAll w ⟨block, []⟩ adds)).1
    have hsame : ((BayanDataSizeFirstImpl.addAll w ⟨block, []⟩ adds).RemoveDuplicate w).1 =
        ((BayanDataSizeFirstImpl.addAll w ⟨block, []⟩ adds).RemoveDuplicate w.allRemoved).1 := by
      rw [hcut]
      apply cut_of_completed
      rw [← hcut]
      exact hdone
    rw [hsame]
    exact List.count_eq_one_of_mem hnodup (hmem.mpr ⟨hp, hq⟩)
  · rw [(sf_removeDuplicate_cut w (BayanDataSizeFirstImpl.addAll w ⟨block, []⟩ adds)).1]
    obtain ⟨rest, hrest⟩ := cut_isPrefix w.remove
      ((BayanDataSizeFirstImpl.addAll w ⟨block, []⟩ adds).RemoveDuplicate w.allRemoved).1
    exact ⟨hashCalls rest, by rw [← hashCalls_append, hrest]⟩
  · intro hp hq
    exact List.count_eq_one_of_mem hnodup (hmem.mpr ⟨hp, hq⟩)

/-- C9, amended, on three files, `a` and `b` of 3 bytes and `c` alone with 5 bytes: `a` is hashed once,
`c` not at all. -/
theorem C9_hash_work_witness :
    (hashCalls ((BayanDataSizeFirstImpl.addAll mixedWorld ⟨4096, []⟩
        [fileA, fileB, fileC]).RemoveDuplicate mixedWorld).1).count fileA = 1 ∧
      (hashCalls ((BayanDataSizeFirstImpl.addAll mixedWorld ⟨4096, []⟩
        [fileA, fileB, fileC]).RemoveDuplicate mixedWorld).1).count fileC = 0 :=
  ⟨(C9_hash_work mixedWorld 4096 [fileA, fileB, fileC] fileA).2.2.2.1 (by decide) (by decide)
      ⟨fileB, by decide, by decide, by decide⟩,
    (C9_hash_work mixedWorld 4096 [fileA, fileB, fileC] fileC).2.2.1 (by decide)⟩

/-- C10, as stated, fails. Four added files, `a` and `b` of 3 bytes and digest 9, `c` and `d`
of 5 bytes and digest 1; the removal of `d` throws. The size-first engine visits the 3-byte
bucket first and removes `b` before the exception; the hash-first engine visits the bucket of
the digest 1 first and ends there, so `b` is not removed. -/
theorem C10_counterexample :
    deniedLast.remove fileB = RemoveOutcome.removed ∧
      fileB ∈ removeCalls ((BayanDataSizeFirstImpl.addAll deniedLast ⟨4096, []⟩
        [fileA, fileB, fileC, fileD]).RemoveDuplicate deniedLast).1 ∧
      fileB ∉ removeCalls ((BayanDataImpl.addAll deniedLast ⟨4096, []⟩
        [fileA, fileB, fileC, fileD]).RemoveDuplicate deniedLast).1 := by
  decide

/-- C10, amended. With sizes and digests fixed, after the same sequence of `Add` calls the
hash-first engine removes exactly the files the size-first engine removes, when no removal
throws: the added paths with an added path of the same size and the same digest before them in
the path order. Whatever the outcomes of the removals, the hash-first engine removes no other
file: files of equal digest and different sizes are not removed for one another, and of the
files of one size in a digest bucket the first in path order is kept; and each engine attempts
an initial segment of the removals of its own run in which every removal succeeds. -/
theorem C10_hash_first_agrees {P D : Type} [LinearOrder P] [LinearOrder D] (w : World P D)
    (block : Nat) (adds : List P) (p : P) :
    ((∀ x, w.remove x ≠ RemoveOutcome.error) →
      ((p ∈ removeCalls ((BayanDataImpl.addAll w ⟨block, []⟩ adds).RemoveDuplicate w).1 ↔
          p ∈ removeCalls
            ((BayanDataSizeFirstImpl.addAll w ⟨block, []⟩ adds).RemoveDuplicate w).1) ∧
        (p ∈ removeCalls ((BayanDataImpl.addAll w ⟨block, []⟩ adds).RemoveDuplicate w).1 ↔
          p ∈ adds ∧ ∃ q ∈ adds, w.file_size q = w.file_size p ∧
            w.hash_func q block = w.hash_func p block ∧ q < p))) ∧
      (p ∈ removeCalls ((BayanDataImpl.addAll w ⟨block, []⟩ adds).RemoveDuplicate w).1 →
        p ∈ adds ∧ ∃ q ∈ adds, w.file_size q = w.file_size p ∧
          w.hash_func q block = w.hash_func p block ∧ q < p) ∧
      removeCalls ((BayanDataImpl.addAll w ⟨block, []⟩ adds).RemoveDuplicate w).1 <+:
        removeCalls ((BayanDataImpl.addAll w ⟨block, []⟩ adds).RemoveDuplicate w.allRemoved).1 ∧
      removeCalls ((BayanDataSizeFirstImpl.addAll w ⟨block, []⟩ adds).RemoveDuplicate w).1 <+:
        removeCalls
          ((BayanDataSizeFirstImpl.addAll w ⟨block, []⟩ adds).RemoveDuplicate w.allRemoved).1 := by
  refine ⟨?_, ?_, ?_, ?_⟩
  · intro hok
    rw [mem_removeCalls, mem_removeCalls, hf_remove_iff w hok, sf_remove_iff w hok]
    exact ⟨Iff.rfl, Iff.rfl⟩
  · intro h
    exact hf_remove_sound w block adds p ((mem_removeCalls _ _).mp h)
  · rw [(hf_removeDuplicate_cut w (BayanDataImpl.addAll w ⟨block, []⟩ adds)).1]
    obtain ⟨rest, hrest⟩ := cut_isPrefix w.remove
      ((BayanDataImpl.addAll w ⟨block, []⟩ adds).RemoveDuplicate w.allRemoved).1
    exact ⟨removeCalls rest, by rw [← removeCalls_append, hrest]⟩
  · rw [(sf_removeDuplicate_cut w (BayanDataSizeFirstImpl.addAll w ⟨block, []⟩ adds)).1]
    obtain ⟨rest, hrest⟩ := cut_isPrefix w.remove
      ((BayanDataSizeFirstImpl.addAll w ⟨block, []⟩ adds).RemoveDuplicate w.allRemoved).1
    exact ⟨removeCalls rest, by rw [← removeCalls_append, hrest]⟩

/-- C10, amended, on three files of one digest, `a` and `b` of 3 bytes and `c` of 5 bytes: both engines
remove `b`, and the hash-first engine removes nothing else. -/
theorem C10_hash_first_agrees_witness :
    (∀ p, mixedWorld.remove p ≠ RemoveOutcome.error) ∧
      (fileB ∈ removeCalls ((BayanDataImpl.addAll mixedWorld ⟨4096, []⟩
          [fileC, fileB, fileA]).RemoveDuplicate mixedWorld).1 ↔
        fileB ∈ removeCalls ((BayanDataSizeFirstImpl.addAll mixedWorld ⟨4096, []⟩
          [fileC, fileB, fileA]).RemoveDuplicate mixedWorld).1) ∧
      removeCalls ((BayanDataImpl.addAll mixedWorld ⟨4096, []⟩
          [fileC, fileB, fileA]).RemoveDuplicate mixedWorld).1 = [fileB] :=
  ⟨fun _ h => RemoveOutcome.noConfusion h,
    ((C10_hash_first_agrees mixedWorld 4096 [fileC, fileB, fileA] fileB).1
      (fun _ h => RemoveOutcome.noConfusion h)).1, by decide⟩


end Dz09
